import Mathlib

/-!
# thread-local.cpp : a thread-local counter incremented by concurrent workers

Shallow embedding of `src/thread-local.cpp` as an interleaving transition
system.  Every C++ statement of `f` and `main` is one atomic step of the thread
that executes it; the `thread_local int counter` is a map from thread
identifier to a 32-bit value; the console is a shared list of records.
-/

namespace ThreadLocal

/-! ## Definitions -/

/-- Thread identifiers. -/
abbrev Tid := Nat

/-- Smallest value of a 32-bit `int`. -/
def INT_MIN : Int := -2147483648

/-- Largest value of a 32-bit `int`. -/
def INT_MAX : Int := 2147483647

/-- Two's complement wrap of an exact integer into the range of a 32-bit `int`. -/
def wrapInt (x : Int) : Int := (x + 2147483648) % 4294967296 - 2147483648

/-- The literal `1'000'000` bounding the loop of `f`. -/
def LOOP_BOUND : Nat := 1000000

/-- The lines the program prints. `fCompletes v` is
`"f() completes: counter="` followed by `v`. -/
inductive Msg
  | fStarts
  | fCompletes (v : Int)
  | mainStarts
  | mainCompletes
  deriving DecidableEq

/-- One line on the console, tagged with the thread that printed it. -/
structure LogRec where
  tid : Tid
  msg : Msg
  deriving DecidableEq

/-- Program points. `idle` is a thread that has not been started.
The `f…` points are the statements of `f`, the `m…` points those of `main`:

* `fLogStart` : `log("f() starts")`
* `fInit`     : `int i = 0`
* `fTest`     : `i < 1'000'000`
* `fRead`     : `int local = counter`
* `fAdd`      : `local += 1`
* `fWrite`    : `counter = local`
* `fInc`      : `i++`
* `fLogDone`  : `log("f() completes: counter=", counter)`
* `fRet`      : `f` has returned, the thread is finished
* `mLogStart` : `log("main() starts")`
* `mSpawn1`   : `std::thread t1 { f }`
* `mSpawn2`   : `std::thread t2 { f }`
* `mJoin1`    : `t1.join()`
* `mJoin2`    : `t2.join()`
* `mLogDone`  : `log("main() completes")`
* `mReturn`   : the implicit `return 0` at the end of `main`
* `mRet`      : `main` has returned -/
inductive Pc
  | idle
  | fLogStart | fInit | fTest | fRead | fAdd | fWrite | fInc | fLogDone | fRet
  | mLogStart | mSpawn1 | mSpawn2 | mJoin1 | mJoin2 | mLogDone | mReturn | mRet
  deriving DecidableEq

/-- The control state of one thread: its program point and the automatic
variables of `f` (`i` and `local`, here `loc`). -/
structure Thread where
  pc : Pc
  i : Int
  loc : Int
  deriving DecidableEq

/-- The whole program state: one `counter` instance per thread, the threads,
the console, and the exit status of the process once `main` has returned. -/
structure State where
  counter : Tid → Int
  thr : Tid → Thread
  log : List LogRec
  exit : Option Int

/-- The thread running `main`. -/
def MAIN : Tid := 0

/-- The thread behind `std::thread t1`. -/
def T1 : Tid := 1

/-- The thread behind `std::thread t2`. -/
def T2 : Tid := 2

/-- A thread that has not been started. -/
def idleThread : Thread := ⟨Pc.idle, 0, 0⟩

/-- A thread about to execute the first statement of `f`. -/
def entryThread : Thread := ⟨Pc.fLogStart, 0, 0⟩

/-- Modelled from the spec: `log` of `log.hpp`, which is not part of the
sources; each call emits one line on the shared console. -/
def log (t : Tid) (m : Msg) (s : State) : State :=
  { s with log := s.log ++ [⟨t, m⟩] }

/-- Replace the control state of thread `t`. -/
def setThr (t : Tid) (th : Thread) (s : State) : State :=
  { s with thr := Function.update s.thr t th }

/-- Move thread `t` to program point `p`. -/
def goto (t : Tid) (p : Pc) (s : State) : State :=
  setThr t { s.thr t with pc := p } s

/-- Start of a `std::thread` running `f`: the new thread gets its own
instance of `counter`, initialised to `0`, and stands at the entry of `f`. -/
def spawn (t : Tid) (s : State) : State :=
  { s with counter := Function.update s.counter t 0,
           thr := Function.update s.thr t entryThread }

/-- One statement executed by thread `t`, with `N` the loop bound of `f`.
`none` when `t` cannot move: it is not started, has finished, or waits in a
`join` for a thread that has not finished. -/
def step (N : Nat) (t : Tid) (s : State) : Option State :=
  match (s.thr t).pc with
  | Pc.idle => none
  | Pc.fLogStart => some (goto t Pc.fInit (log t Msg.fStarts s))
  | Pc.fInit => some (setThr t { s.thr t with pc := Pc.fTest, i := 0 } s)
  | Pc.fTest =>
      some (goto t (if (s.thr t).i < (N : Int) then Pc.fRead else Pc.fLogDone) s)
  | Pc.fRead => some (setThr t { s.thr t with pc := Pc.fAdd, loc := s.counter t } s)
  | Pc.fAdd =>
      some (setThr t { s.thr t with pc := Pc.fWrite, loc := wrapInt ((s.thr t).loc + 1) } s)
  | Pc.fWrite =>
      some (goto t Pc.fInc { s with counter := Function.update s.counter t (s.thr t).loc })
  | Pc.fInc =>
      some (setThr t { s.thr t with pc := Pc.fTest, i := wrapInt ((s.thr t).i + 1) } s)
  | Pc.fLogDone => some (goto t Pc.fRet (log t (Msg.fCompletes (s.counter t)) s))
  | Pc.fRet => none
  | Pc.mLogStart => some (goto t Pc.mSpawn1 (log t Msg.mainStarts s))
  | Pc.mSpawn1 => some (spawn T1 (goto t Pc.mSpawn2 s))
  | Pc.mSpawn2 => some (spawn T2 (goto t Pc.mJoin1 s))
  | Pc.mJoin1 => if (s.thr T1).pc = Pc.fRet then some (goto t Pc.mJoin2 s) else none
  | Pc.mJoin2 => if (s.thr T2).pc = Pc.fRet then some (goto t Pc.mLogDone s) else none
  | Pc.mLogDone => some (goto t Pc.mReturn (log t Msg.mainCompletes s))
  | Pc.mReturn => some (goto t Pc.mRet { s with exit := some 0 })
  | Pc.mRet => none

/-- Run a schedule: the threads of the list take one step each, in that
order. `none` when the schedule picks a thread that cannot move. -/
def exec (N : Nat) : List Tid → State → Option State
  | [], s => some s
  | t :: ts, s => (step N t s).bind (exec N ts)

/-- The program points executed by thread `t` when it runs alone for at most
`fuel` steps. -/
def pcTrace (N : Nat) (t : Tid) : Nat → State → List Pc
  | 0, _ => []
  | fuel + 1, s =>
    match step N t s with
    | none => []
    | some s' => (s.thr t).pc :: pcTrace N t fuel s'

/-- `K` threads, numbered `0 … K-1`, each freshly started on `f`. -/
def initWorkers (K : Nat) : State :=
  { counter := fun _ => 0,
    thr := fun t => if t < K then entryThread else idleThread,
    log := [],
    exit := none }

/-- The state in which the program starts: only `main` exists. -/
def initMain : State :=
  { counter := fun _ => 0,
    thr := fun t => if t = MAIN then ⟨Pc.mLogStart, 0, 0⟩ else idleThread,
    log := [],
    exit := none }

/-- The number of steps `f` takes with loop bound `N`: two before the
loop, five per iteration, the failing test and the final `log`. -/
def fSteps (N : Nat) : Nat := 5 * N + 4

/-- What is known of a worker thread with control state `th` and counter
instance `c` while it runs `f` with loop bound `N`, having started with its
counter at `0`. -/
def WInv (N : Nat) (th : Thread) (c : Int) : Prop :=
  match th.pc with
  | Pc.fLogStart => c = 0
  | Pc.fInit => c = 0
  | Pc.fTest => 0 ≤ th.i ∧ th.i ≤ N ∧ c = th.i
  | Pc.fRead => 0 ≤ th.i ∧ th.i < N ∧ c = th.i
  | Pc.fAdd => 0 ≤ th.i ∧ th.i < N ∧ c = th.i ∧ th.loc = th.i
  | Pc.fWrite => 0 ≤ th.i ∧ th.i < N ∧ c = th.i ∧ th.loc = th.i + 1
  | Pc.fInc => 0 ≤ th.i ∧ th.i < N ∧ c = th.i + 1
  | Pc.fLogDone => th.i = N ∧ c = N
  | Pc.fRet => c = N
  | _ => True

/-- One `local += 1` on a 32-bit `int`. -/
def bump (c : Int) : Int := wrapInt (c + 1)

/-- The relation between two states that differ at most in what belongs to
thread `t` and in the console. -/
def Others (t : Tid) (s s' : State) : Prop :=
  s'.exit = s.exit ∧ ∀ u, u ≠ t → s'.thr u = s.thr u ∧ s'.counter u = s.counter u

/-- The program points of one iteration of the loop of `f`. -/
def bodyPcs : List Pc := [Pc.fTest, Pc.fRead, Pc.fAdd, Pc.fWrite, Pc.fInc]

/-- The program points `f` executes with loop bound `N`, in order. -/
def fPcs (N : Nat) : List Pc :=
  [Pc.fLogStart, Pc.fInit] ++ (List.replicate N bodyPcs).flatten ++ [Pc.fTest, Pc.fLogDone]

/-- Program points of `main`. -/
def Pc.inMain : Pc → Bool
  | Pc.mLogStart | Pc.mSpawn1 | Pc.mSpawn2 | Pc.mJoin1 | Pc.mJoin2 | Pc.mLogDone
  | Pc.mReturn | Pc.mRet => true
  | _ => false

/-- Program points of `f`. -/
def Pc.inF : Pc → Bool
  | Pc.fLogStart | Pc.fInit | Pc.fTest | Pc.fRead | Pc.fAdd | Pc.fWrite | Pc.fInc
  | Pc.fLogDone | Pc.fRet => true
  | _ => false

/-- Where the two workers stand, given the program point of `main`. -/
def Phase (pm p1 p2 : Pc) : Prop :=
  match pm with
  | Pc.mLogStart => p1 = Pc.idle ∧ p2 = Pc.idle
  | Pc.mSpawn1 => p1 = Pc.idle ∧ p2 = Pc.idle
  | Pc.mSpawn2 => p1.inF = true ∧ p2 = Pc.idle
  | Pc.mJoin1 => p1.inF = true ∧ p2.inF = true
  | Pc.mJoin2 => p1 = Pc.fRet ∧ p2.inF = true
  | Pc.mLogDone => p1 = Pc.fRet ∧ p2 = Pc.fRet
  | Pc.mReturn => p1 = Pc.fRet ∧ p2 = Pc.fRet
  | Pc.mRet => p1 = Pc.fRet ∧ p2 = Pc.fRet
  | _ => False

/-- The shape of every state of the program: `main` runs on thread `MAIN`,
the workers are where `Phase` says, no other thread exists, and the exit status
is set exactly when `main` has returned. -/
def Struct (s : State) : Prop :=
  Phase (s.thr MAIN).pc (s.thr T1).pc (s.thr T2).pc ∧
  (∀ t, t ≠ MAIN → t ≠ T1 → t ≠ T2 → (s.thr t).pc = Pc.idle) ∧
  s.exit = (if (s.thr MAIN).pc = Pc.mRet then some 0 else none)

/-- The lines of the console printed by thread `t`, in order. -/
def linesOf (t : Tid) (l : List LogRec) : List LogRec :=
  l.filter (fun r => decide (r.tid = t))

/-- The lines a thread has printed when it stands at program point `p` with
its counter instance at `c`. -/
def emitted (t : Tid) (p : Pc) (c : Int) : List LogRec :=
  match p with
  | Pc.idle => []
  | Pc.fLogStart => []
  | Pc.fRet => [⟨t, Msg.fStarts⟩, ⟨t, Msg.fCompletes c⟩]
  | Pc.mLogStart => []
  | Pc.mSpawn1 => [⟨t, Msg.mainStarts⟩]
  | Pc.mSpawn2 => [⟨t, Msg.mainStarts⟩]
  | Pc.mJoin1 => [⟨t, Msg.mainStarts⟩]
  | Pc.mJoin2 => [⟨t, Msg.mainStarts⟩]
  | Pc.mLogDone => [⟨t, Msg.mainStarts⟩]
  | Pc.mReturn => [⟨t, Msg.mainStarts⟩, ⟨t, Msg.mainCompletes⟩]
  | Pc.mRet => [⟨t, Msg.mainStarts⟩, ⟨t, Msg.mainCompletes⟩]
  | _ => [⟨t, Msg.fStarts⟩]

/-- Thread `t` has printed exactly the lines its program point accounts for. -/
def LInv (t : Tid) (s : State) : Prop :=
  linesOf t s.log = emitted t (s.thr t).pc (s.counter t)

/-- Every occurrence of line `b` on console `l` comes after an occurrence of
line `a`. -/
def Before (a b : LogRec) (l : List LogRec) : Prop :=
  ∀ pre post, l = pre ++ b :: post → a ∈ pre

/-- The invariant of the program run with loop bound `N`. -/
def MainInv (N : Nat) (s : State) : Prop :=
  Struct s ∧ (∀ t, WInv N (s.thr t) (s.counter t)) ∧ (∀ t, LInv t s) ∧
  (∀ r : LogRec, r.tid ≠ MAIN → Before ⟨MAIN, Msg.mainStarts⟩ r s.log) ∧
  Before ⟨T1, Msg.fCompletes N⟩ ⟨MAIN, Msg.mainCompletes⟩ s.log ∧
  Before ⟨T2, Msg.fCompletes N⟩ ⟨MAIN, Msg.mainCompletes⟩ s.log

/-- A schedule that runs the program to the end: `main` up to the first
`join`, then all of `t1`, then all of `t2`, then the rest of `main`. -/
def mainSchedule (N : Nat) : List Tid :=
  [MAIN, MAIN, MAIN] ++ (List.replicate (fSteps N) T1 ++
    (List.replicate (fSteps N) T2 ++ [MAIN, MAIN, MAIN, MAIN]))

/-- No thread runs `main`: the state is a pool of workers. -/
def NoMain (s : State) : Prop := ∀ t, (s.thr t).pc.inMain = false

/-- The invariant of a pool of workers running `f` with loop bound `N`. -/
def PoolInv (N : Nat) (s : State) : Prop :=
  NoMain s ∧ (∀ t, WInv N (s.thr t) (s.counter t)) ∧ (∀ t, LInv t s)

/-- A schedule that runs a pool of `K` workers to the end, one worker after
the other. -/
def poolSchedule (N : Nat) : Nat → List Tid
  | 0 => []
  | K + 1 => poolSchedule N K ++ List.replicate (fSteps N) K

/-- What holds of a worker when the loop bound exceeds `INT_MAX`: its 32-bit
variables are at most `INT_MAX`, so the loop test never fails and the thread
never reaches the final `log` nor the end of `f`. -/
def RInv (th : Thread) (c : Int) : Prop :=
  th.pc ≠ Pc.fLogDone ∧ th.pc ≠ Pc.fRet ∧ th.i ≤ INT_MAX ∧ th.loc ≤ INT_MAX ∧ c ≤ INT_MAX

/-- Whether a thread at program point `p` has yet to execute a
`std::thread` statement that starts thread `t`. -/
def willSpawn (p : Pc) (t : Tid) : Bool :=
  match p with
  | Pc.mLogStart => decide (t = T1) || decide (t = T2)
  | Pc.mSpawn1 => decide (t = T1) || decide (t = T2)
  | Pc.mSpawn2 => decide (t = T2)
  | _ => false

/-- No thread has yet to start thread `t`: a thread `t` that runs now is not
going to be replaced by a freshly started one. -/
def NoRespawn (t : Tid) (s : State) : Prop :=
  ∀ u, willSpawn (s.thr u).pc t = false

/-- Thread `t` runs `f`, and its lines on the console are the lines `l0` it
had printed before this invocation followed by the lines its program point
accounts for. -/
def RelLog (t : Tid) (l0 : List LogRec) (s : State) : Prop :=
  (s.thr t).pc.inF = true ∧
  linesOf t s.log = l0 ++ emitted t (s.thr t).pc (s.counter t)

/-! ## Theorems -/

theorem wrapInt_of_range (x : Int) (h1 : INT_MIN ≤ x) (h2 : x ≤ INT_MAX) :
    wrapInt x = x := by
  unfold INT_MIN at h1
  unfold INT_MAX at h2
  unfold wrapInt
  omega

theorem wrapInt_range (x : Int) : INT_MIN ≤ wrapInt x ∧ wrapInt x ≤ INT_MAX := by
  unfold INT_MIN INT_MAX wrapInt
  omega

@[simp]
theorem log_thr (t : Tid) (m : Msg) (s : State) : (log t m s).thr = s.thr := rfl

@[simp]
theorem log_counter (t : Tid) (m : Msg) (s : State) :
    (log t m s).counter = s.counter := rfl

@[simp]
theorem log_log (t : Tid) (m : Msg) (s : State) :
    (log t m s).log = s.log ++ [⟨t, m⟩] := rfl

@[simp]
theorem log_exit (t : Tid) (m : Msg) (s : State) : (log t m s).exit = s.exit := rfl

@[simp]
theorem setThr_thr (t : Tid) (th : Thread) (s : State) :
    (setThr t th s).thr = Function.update s.thr t th := rfl

@[simp]
theorem setThr_counter (t : Tid) (th : Thread) (s : State) :
    (setThr t th s).counter = s.counter := rfl

@[simp]
theorem setThr_log (t : Tid) (th : Thread) (s : State) :
    (setThr t th s).log = s.log := rfl

@[simp]
theorem setThr_exit (t : Tid) (th : Thread) (s : State) :
    (setThr t th s).exit = s.exit := rfl

@[simp]
theorem goto_thr (t : Tid) (p : Pc) (s : State) :
    (goto t p s).thr = Function.update s.thr t { s.thr t with pc := p } := rfl

@[simp]
theorem goto_counter (t : Tid) (p : Pc) (s : State) :
    (goto t p s).counter = s.counter := rfl

@[simp]
theorem goto_log (t : Tid) (p : Pc) (s : State) : (goto t p s).log = s.log := rfl

@[simp]
theorem goto_exit (t : Tid) (p : Pc) (s : State) : (goto t p s).exit = s.exit := rfl

@[simp]
theorem spawn_thr (t : Tid) (s : State) :
    (spawn t s).thr = Function.update s.thr t entryThread := rfl

@[simp]
theorem spawn_counter (t : Tid) (s : State) :
    (spawn t s).counter = Function.update s.counter t 0 := rfl

@[simp]
theorem spawn_log (t : Tid) (s : State) : (spawn t s).log = s.log := rfl

@[simp]
theorem spawn_exit (t : Tid) (s : State) : (spawn t s).exit = s.exit := rfl

theorem WInv_step (N : Nat) (hN : (N : Int) ≤ INT_MAX) (t u : Tid) (s s' : State)
    (h : step N u s = some s') (hI : WInv N (s.thr t) (s.counter t)) :
    WInv N (s'.thr t) (s'.counter t) := by
  unfold INT_MAX at hN
  by_cases hut : u = t
  · subst hut
    rcases hth : s.thr u with ⟨pc, i, loc⟩
    rw [hth] at hI
    cases pc <;> simp [step, hth] at h
    all_goals first | subst h | (obtain ⟨_, h⟩ := h; subst h)
    all_goals simp [WInv, Function.update_apply, entryThread, hth] at hI ⊢
    all_goals (try split_ifs)
    all_goals (try simp_all)
    all_goals (try unfold wrapInt)
    all_goals (try omega)
  · have htu : ¬ t = u := fun e => hut e.symm
    rcases hth : s.thr u with ⟨pc, i, loc⟩
    cases pc <;> simp [step, hth] at h
    all_goals first | subst h | (obtain ⟨_, h⟩ := h; subst h)
    all_goals simp [Function.update_apply, htu]
    all_goals (try exact hI)
    all_goals split_ifs with h1
    all_goals first | exact hI | simp [WInv, entryThread]

theorem exec_append (N : Nat) (l1 l2 : List Tid) (s : State) :
    exec N (l1 ++ l2) s = (exec N l1 s).bind (exec N l2) := by
  induction l1 generalizing s with
  | nil => simp [exec]
  | cons t ts ih =>
    simp only [List.cons_append, exec]
    cases step N t s with
    | none => simp
    | some s1 => simp [ih]

theorem WInv_exec (N : Nat) (hN : (N : Int) ≤ INT_MAX) (t : Tid) (sched : List Tid)
    (s s' : State) (h : exec N sched s = some s')
    (hI : WInv N (s.thr t) (s.counter t)) : WInv N (s'.thr t) (s'.counter t) := by
  induction sched generalizing s with
  | nil =>
    simp [exec] at h
    subst h
    exact hI
  | cons u us ih =>
    simp only [exec] at h
    cases hs : step N u s with
    | none => simp [hs] at h
    | some s1 =>
      simp [hs] at h
      exact ih s1 h (WInv_step N hN t u s s1 hs hI)

theorem iter_once (N : Nat) (t : Tid) (s : State) (hpc : (s.thr t).pc = Pc.fTest)
    (hlt : (s.thr t).i < (N : Int)) :
    ∃ s', exec N (List.replicate 5 t) s = some s' ∧ (s'.thr t).pc = Pc.fTest ∧
      (s'.thr t).i = wrapInt ((s.thr t).i + 1) ∧ s'.counter t = bump (s.counter t) ∧
      s'.log = s.log ∧ Others t s s' ∧ pcTrace N t 5 s = bodyPcs := by
  rcases hth : s.thr t with ⟨pc, i, loc⟩
  rw [hth] at hpc hlt
  simp at hpc hlt
  subst hpc
  have hex : ∀ s', exec N (List.replicate 5 t) s = some s' →
      (s'.thr t).pc = Pc.fTest ∧
      (s'.thr t).i = wrapInt (i + 1) ∧ s'.counter t = bump (s.counter t) ∧
      s'.log = s.log ∧ Others t s s' := by
    intro s' h
    simp [List.replicate, exec, step, hth, hlt] at h
    subst h
    simp [Others, bump]
    intro u hu
    simp [Function.update_apply, hu]
  have hsome : ∃ s', exec N (List.replicate 5 t) s = some s' := by
    simp [List.replicate, exec, step, hth, hlt]
  obtain ⟨s', hs'⟩ := hsome
  refine ⟨s', hs', ?_⟩
  obtain ⟨h1, h2, h3, h4, h5⟩ := hex s' hs'
  refine ⟨h1, h2, h3, h4, h5, ?_⟩
  simp [pcTrace, bodyPcs, step, hth, hlt]

theorem Others.refl (t : Tid) (s : State) : Others t s s := by
  simp [Others]

theorem Others.trans {t : Tid} {s1 s2 s3 : State} (h1 : Others t s1 s2)
    (h2 : Others t s2 s3) : Others t s1 s3 := by
  refine ⟨h2.1.trans h1.1, fun u hu => ?_⟩
  exact ⟨(h2.2 u hu).1.trans (h1.2 u hu).1, (h2.2 u hu).2.trans (h1.2 u hu).2⟩

theorem pcTrace_append (N : Nat) (t : Tid) (a b : Nat) (s s' : State)
    (h : exec N (List.replicate a t) s = some s') :
    pcTrace N t (a + b) s = pcTrace N t a s ++ pcTrace N t b s' := by
  induction a generalizing s with
  | zero =>
    simp [exec] at h
    subst h
    simp [pcTrace]
  | succ a ih =>
    simp only [List.replicate_succ, exec] at h
    have e : a + 1 + b = (a + b) + 1 := by omega
    rw [e]
    cases hs : step N t s with
    | none => simp [hs] at h
    | some s1 =>
      simp [hs] at h
      simp [pcTrace, hs, ih s1 h]

theorem loop_run (N : Nat) (hN : (N : Int) ≤ INT_MAX) (t : Tid) (k : Nat) (s : State)
    (hpc : (s.thr t).pc = Pc.fTest) (h0 : 0 ≤ (s.thr t).i)
    (hk : (s.thr t).i + k ≤ N) :
    ∃ s', exec N (List.replicate (5 * k) t) s = some s' ∧ (s'.thr t).pc = Pc.fTest ∧
      (s'.thr t).i = (s.thr t).i + k ∧ s'.counter t = bump^[k] (s.counter t) ∧
      s'.log = s.log ∧ Others t s s' ∧
      pcTrace N t (5 * k) s = (List.replicate k bodyPcs).flatten := by
  induction k generalizing s with
  | zero =>
    exact ⟨s, by simp [exec], hpc, by simp, by simp, rfl, Others.refl t s, by simp [pcTrace]⟩
  | succ k ih =>
    have hlt : (s.thr t).i < (N : Int) := by push_cast at hk; omega
    obtain ⟨s1, e1, p1, i1, c1, l1, o1, tr1⟩ := iter_once N t s hpc hlt
    have hw : wrapInt ((s.thr t).i + 1) = (s.thr t).i + 1 := by
      apply wrapInt_of_range
      · unfold INT_MIN; omega
      · omega
    rw [hw] at i1
    obtain ⟨s2, e2, p2, i2, c2, l2, o2, tr2⟩ :=
      ih s1 p1 (by rw [i1]; omega) (by rw [i1]; push_cast at hk; omega)
    have e5 : 5 * (k + 1) = 5 + 5 * k := by omega
    refine ⟨s2, ?_, p2, ?_, ?_, l2.trans l1, o1.trans o2, ?_⟩
    · rw [e5, List.replicate_add, exec_append, e1]
      simpa using e2
    · rw [i2, i1]; push_cast; omega
    · rw [c2, c1, Function.iterate_succ_apply]
    · rw [e5, pcTrace_append N t 5 (5 * k) s s1 e1, tr1, tr2]
      simp [List.replicate_succ]

theorem bump_iterate (k : Nat) (c : Int) (h1 : INT_MIN ≤ c) (h2 : c + k ≤ INT_MAX) :
    bump^[k] c = c + k := by
  induction k generalizing c with
  | zero => simp
  | succ k ih =>
    have hb : bump c = c + 1 := by
      unfold bump
      apply wrapInt_of_range
      · unfold INT_MIN at *; omega
      · push_cast at h2; omega
    rw [Function.iterate_succ_apply, hb, ih (c + 1)]
    · push_cast; omega
    · unfold INT_MIN at *; omega
    · push_cast at h2 ⊢; omega

theorem prologue_run (N : Nat) (t : Tid) (s : State)
    (hpc : (s.thr t).pc = Pc.fLogStart) :
    ∃ s', exec N (List.replicate 2 t) s = some s' ∧ (s'.thr t).pc = Pc.fTest ∧
      (s'.thr t).i = 0 ∧ s'.counter t = s.counter t ∧
      s'.log = s.log ++ [⟨t, Msg.fStarts⟩] ∧ Others t s s' ∧
      pcTrace N t 2 s = [Pc.fLogStart, Pc.fInit] := by
  rcases hth : s.thr t with ⟨pc, i, loc⟩
  rw [hth] at hpc
  simp at hpc
  subst hpc
  have hex : ∀ s', exec N (List.replicate 2 t) s = some s' →
      (s'.thr t).pc = Pc.fTest ∧ (s'.thr t).i = 0 ∧ s'.counter t = s.counter t ∧
      s'.log = s.log ++ [⟨t, Msg.fStarts⟩] ∧ Others t s s' := by
    intro s' h
    simp [List.replicate, exec, step, hth] at h
    subst h
    simp [Others]
    intro u hu
    simp [Function.update_apply, hu]
  have hsome : ∃ s', exec N (List.replicate 2 t) s = some s' := by
    simp [List.replicate, exec, step, hth]
  obtain ⟨s', hs'⟩ := hsome
  refine ⟨s', hs', ?_⟩
  obtain ⟨h1, h2, h3, h4, h5⟩ := hex s' hs'
  refine ⟨h1, h2, h3, h4, h5, ?_⟩
  simp [pcTrace, step, hth]

theorem epilogue_run (N : Nat) (t : Tid) (s : State)
    (hpc : (s.thr t).pc = Pc.fTest) (hge : ¬ (s.thr t).i < (N : Int)) :
    ∃ s', exec N (List.replicate 2 t) s = some s' ∧ (s'.thr t).pc = Pc.fRet ∧
      s'.counter t = s.counter t ∧
      s'.log = s.log ++ [⟨t, Msg.fCompletes (s.counter t)⟩] ∧ Others t s s' ∧
      step N t s' = none ∧
      pcTrace N t 2 s = [Pc.fTest, Pc.fLogDone] := by
  rcases hth : s.thr t with ⟨pc, i, loc⟩
  rw [hth] at hpc hge
  simp at hpc
  subst hpc
  have hge : ¬ i < (N : Int) := hge
  have hif : (if i < (N : Int) then Pc.fRead else Pc.fLogDone) = Pc.fLogDone := if_neg hge
  have hex : ∀ s', exec N (List.replicate 2 t) s = some s' →
      (s'.thr t).pc = Pc.fRet ∧ s'.counter t = s.counter t ∧
      s'.log = s.log ++ [⟨t, Msg.fCompletes (s.counter t)⟩] ∧ Others t s s' := by
    intro s' h
    simp [List.replicate, exec, step, hth, hif] at h
    subst h
    simp [Others]
    intro u hu
    simp [Function.update_apply, hu]
  have hsome : ∃ s', exec N (List.replicate 2 t) s = some s' := by
    simp [List.replicate, exec, step, hth, hif]
  obtain ⟨s', hs'⟩ := hsome
  refine ⟨s', hs', ?_⟩
  obtain ⟨h1, h2, h3, h4⟩ := hex s' hs'
  refine ⟨h1, h2, h3, h4, ?_, ?_⟩
  · simp [step, h1]
  · simp [pcTrace, step, hth, hif]

theorem full_run (N : Nat) (hN : (N : Int) ≤ INT_MAX) (t : Tid) (s : State)
    (hpc : (s.thr t).pc = Pc.fLogStart) :
    ∃ s', exec N (List.replicate (fSteps N) t) s = some s' ∧ (s'.thr t).pc = Pc.fRet ∧
      s'.counter t = bump^[N] (s.counter t) ∧
      s'.log = s.log ++ [⟨t, Msg.fStarts⟩, ⟨t, Msg.fCompletes (bump^[N] (s.counter t))⟩] ∧
      Others t s s' ∧ step N t s' = none ∧
      pcTrace N t (fSteps N) s = fPcs N := by
  obtain ⟨s1, e1, p1, i1, c1, l1, o1, tr1⟩ := prologue_run N t s hpc
  obtain ⟨s2, e2, p2, i2, c2, l2, o2, tr2⟩ :=
    loop_run N hN t N s1 p1 (by rw [i1]) (by rw [i1]; simp)
  obtain ⟨s3, e3, p3, c3, l3, o3, n3, tr3⟩ :=
    epilogue_run N t s2 p2 (by rw [i2, i1]; simp)
  have e5 : fSteps N = 2 + (5 * N + 2) := by unfold fSteps; omega
  refine ⟨s3, ?_, p3, ?_, ?_, o1.trans (o2.trans o3), n3, ?_⟩
  · rw [e5, List.replicate_add, List.replicate_add, exec_append, e1]
    show exec N (List.replicate (5 * N) t ++ List.replicate 2 t) s1 = some s3
    rw [exec_append, e2]
    exact e3
  · rw [c3, c2, c1]
  · rw [l3, l2, l1, c2, c1]
    simp
  · have e12 : exec N (List.replicate (5 * N) t) s1 = some s2 := e2
    rw [e5, pcTrace_append N t 2 (5 * N + 2) s s1 e1,
      pcTrace_append N t (5 * N) 2 s1 s2 e12, tr1, tr2, tr3]
    simp [fPcs]

theorem Struct_step (N : Nat) (u : Tid) (s s' : State) (h : step N u s = some s')
    (hS : Struct s) : Struct s' := by
  obtain ⟨hP, hO, hE⟩ := hS
  have d01 : MAIN ≠ T1 := by decide
  have d02 : MAIN ≠ T2 := by decide
  have d12 : T1 ≠ T2 := by decide
  by_cases hu0 : u = MAIN
  · subst hu0
    rcases hth : s.thr MAIN with ⟨pc, i, loc⟩
    rw [hth] at hP hE
    cases pc <;> simp [Phase] at hP
    all_goals simp [step, hth] at h
    all_goals first | subst h | (obtain ⟨h9, h⟩ := h; subst h)
    all_goals simp [Struct, Phase, Function.update_apply, d01, d02, d12, d01.symm, d02.symm,
      d12.symm, hth, entryThread] at hE ⊢
    all_goals simp_all
    all_goals rfl
  · rcases hm : s.thr MAIN with ⟨pm, im, lm⟩
    rw [hm] at hP hE
    by_cases hu1 : u = T1
    · subst hu1
      rcases hth : s.thr T1 with ⟨pc, i, loc⟩
      rw [hth] at hP
      cases pm <;> simp [Phase] at hP
      all_goals cases pc <;> simp [Pc.inF] at hP
      all_goals simp [step, hth] at h
      all_goals subst h
      all_goals simp [Struct, Phase, Function.update_apply, d01, d02, d12, d01.symm, d02.symm,
        d12.symm, hth, hm, entryThread, Pc.inF] at hE ⊢
      all_goals simp_all
      all_goals (split_ifs <;> rfl)
    · by_cases hu2 : u = T2
      · subst hu2
        rcases hth : s.thr T2 with ⟨pc, i, loc⟩
        rw [hth] at hP
        cases pm <;> simp [Phase] at hP
        all_goals cases pc <;> simp [Pc.inF] at hP
        all_goals simp [step, hth] at h
        all_goals subst h
        all_goals simp [Struct, Phase, Function.update_apply, d01, d02, d12, d01.symm, d02.symm,
          d12.symm, hth, hm, entryThread, Pc.inF] at hE ⊢
        all_goals simp_all
        all_goals (split_ifs <;> rfl)
      · have hidle := hO u hu0 hu1 hu2
        simp [step, hidle] at h

theorem linesOf_append (t : Tid) (l1 l2 : List LogRec) :
    linesOf t (l1 ++ l2) = linesOf t l1 ++ linesOf t l2 := by
  simp [linesOf]

theorem linesOf_self (t : Tid) (m : Msg) : linesOf t [⟨t, m⟩] = [⟨t, m⟩] := by
  simp [linesOf]

theorem linesOf_other (t u : Tid) (m : Msg) (h : u ≠ t) : linesOf t [⟨u, m⟩] = [] := by
  simp [linesOf, h]

theorem LInv_step (N : Nat) (u t : Tid) (s s' : State) (h : step N u s = some s')
    (hL : LInv t s)
    (hg1 : (s.thr u).pc = Pc.mSpawn1 → (s.thr T1).pc = Pc.idle)
    (hg2 : (s.thr u).pc = Pc.mSpawn2 → (s.thr T2).pc = Pc.idle) : LInv t s' := by
  unfold LInv at hL ⊢
  by_cases hut : u = t
  · subst hut
    rcases hth : s.thr u with ⟨pc, i, loc⟩
    rw [hth] at hL hg1 hg2
    cases pc <;> simp [step, hth] at h
    all_goals first | subst h | (obtain ⟨_, h⟩ := h; subst h)
    all_goals simp [emitted, linesOf_append, linesOf_self, Function.update_apply, hth,
      entryThread] at hL hg1 hg2 ⊢
    all_goals (try simp [hL])
    · split_ifs <;> rfl
    · split_ifs with hu
      · subst hu
        rw [hth] at hg1
        simp at hg1
      · rfl
    · split_ifs with hu
      · subst hu
        rw [hth] at hg2
        simp at hg2
      · rfl
  · have htu : ¬ t = u := fun e => hut e.symm
    rcases hth : s.thr u with ⟨pc, i, loc⟩
    rw [hth] at hg1 hg2
    cases pc <;> simp [step, hth] at h
    all_goals first | subst h | (obtain ⟨_, h⟩ := h; subst h)
    all_goals simp [linesOf_append, linesOf_other _ _ _ hut, Function.update_apply, htu,
      entryThread] at hg1 hg2 ⊢
    all_goals (try exact hL)
    · split_ifs with ht
      · subst ht
        rw [hL, hg1]
        rfl
      · exact hL
    · split_ifs with ht
      · subst ht
        rw [hL, hg2]
        rfl
      · exact hL

theorem Before_nil (a b : LogRec) : Before a b [] := by
  intro pre post h
  simp at h

theorem Before_append_one (a b r : LogRec) (l : List LogRec) (hB : Before a b l)
    (hr : r = b → a ∈ l) : Before a b (l ++ [r]) := by
  intro pre post h
  rcases List.eq_nil_or_concat post with hp | ⟨post', x, hp⟩
  · subst hp
    have h2 : l ++ [r] = pre ++ [b] := h
    obtain ⟨h3, h4⟩ := List.append_inj' h2 rfl
    simp at h4
    rw [← h3]
    exact hr h4
  · subst hp
    have h2 : l ++ [r] = (pre ++ b :: post') ++ [x] := by simpa using h
    obtain ⟨h3, _⟩ := List.append_inj' h2 rfl
    exact hB pre post' h3

theorem mem_of_linesOf (t : Tid) (r : LogRec) (l : List LogRec) (h : r ∈ linesOf t l) :
    r ∈ l := by
  unfold linesOf at h
  exact List.mem_of_mem_filter h

theorem step_log (N : Nat) (u : Tid) (s s' : State) (h : step N u s = some s') :
    s'.log = s.log ∨
    (s'.log = s.log ++ [⟨u, Msg.fStarts⟩] ∧ (s.thr u).pc = Pc.fLogStart) ∨
    (s'.log = s.log ++ [⟨u, Msg.fCompletes (s.counter u)⟩] ∧ (s.thr u).pc = Pc.fLogDone) ∨
    (s'.log = s.log ++ [⟨u, Msg.mainStarts⟩] ∧ (s.thr u).pc = Pc.mLogStart) ∨
    (s'.log = s.log ++ [⟨u, Msg.mainCompletes⟩] ∧ (s.thr u).pc = Pc.mLogDone) := by
  rcases hth : s.thr u with ⟨pc, i, loc⟩
  cases pc <;> simp [step, hth] at h
  all_goals first | subst h | (obtain ⟨_, h⟩ := h; subst h)
  all_goals simp

theorem Struct_inMain (s : State) (hS : Struct s) (u : Tid)
    (hu : (s.thr u).pc.inMain = true) : u = MAIN := by
  obtain ⟨hP, hO, _⟩ := hS
  by_contra h0
  by_cases h1 : u = T1
  · subst h1
    rcases hm : (s.thr MAIN).pc <;> rw [hm] at hP <;> simp [Phase] at hP <;>
      rcases h1 : (s.thr T1).pc <;> rw [h1] at hP hu <;> simp [Pc.inF, Pc.inMain] at hP hu
  · by_cases h2 : u = T2
    · subst h2
      rcases hm : (s.thr MAIN).pc <;> rw [hm] at hP <;> simp [Phase] at hP <;>
        rcases h1 : (s.thr T2).pc <;> rw [h1] at hP hu <;> simp [Pc.inF, Pc.inMain] at hP hu
    · rw [hO u h0 h1 h2] at hu
      simp [Pc.inMain] at hu

theorem main_started (s : State) (hS : Struct s) (hL : LInv MAIN s) (u : Tid)
    (hu : u ≠ MAIN) (hi : (s.thr u).pc ≠ Pc.idle) : ⟨MAIN, Msg.mainStarts⟩ ∈ s.log := by
  obtain ⟨hP, hO, _⟩ := hS
  apply mem_of_linesOf MAIN
  rw [hL]
  rcases hm : (s.thr MAIN).pc <;> rw [hm] at hP <;> simp [Phase] at hP <;> simp [emitted]
  by_cases h1 : u = T1
  · subst h1
    exact hi hP.1
  · by_cases h2 : u = T2
    · subst h2
      exact hi hP.2
    · exact hi (hO u hu h1 h2)

theorem done_logged (N : Nat) (s : State) (t : Tid) (hW : WInv N (s.thr t) (s.counter t))
    (hL : LInv t s) (hp : (s.thr t).pc = Pc.fRet) :
    linesOf t s.log = [⟨t, Msg.fStarts⟩, ⟨t, Msg.fCompletes N⟩] := by
  unfold LInv at hL
  rw [hp] at hL
  simp [WInv, hp] at hW
  rw [hL, hW]
  rfl

theorem MainInv_init (N : Nat) : MainInv N initMain := by
  refine ⟨?_, ?_, ?_, ?_, ?_, ?_⟩
  · refine ⟨?_, ?_, ?_⟩
    · simp [initMain, Phase, MAIN, T1, T2, idleThread]
    · intro t h0 _ _
      simp [initMain, h0, idleThread]
    · simp [initMain]
  · intro t
    by_cases h : t = MAIN <;> simp [initMain, h, WInv, idleThread]
  · intro t
    by_cases h : t = MAIN <;> simp [initMain, h, LInv, linesOf, emitted, idleThread]
  · intro r _
    exact Before_nil _ _
  · exact Before_nil _ _
  · exact Before_nil _ _

theorem MainInv_step (N : Nat) (hN : (N : Int) ≤ INT_MAX) (u : Tid) (s s' : State)
    (h : step N u s = some s') (hI : MainInv N s) : MainInv N s' := by
  obtain ⟨hS, hW, hL, hB0, hB1, hB2⟩ := hI
  have hg1 : (s.thr u).pc = Pc.mSpawn1 → (s.thr T1).pc = Pc.idle := by
    intro hp
    have hu : u = MAIN := Struct_inMain s hS u (by rw [hp]; rfl)
    subst hu
    have hP := hS.1
    rw [hp] at hP
    exact hP.1
  have hg2 : (s.thr u).pc = Pc.mSpawn2 → (s.thr T2).pc = Pc.idle := by
    intro hp
    have hu : u = MAIN := Struct_inMain s hS u (by rw [hp]; rfl)
    subst hu
    have hP := hS.1
    rw [hp] at hP
    exact hP.2
  refine ⟨Struct_step N u s s' h hS, fun t => WInv_step N hN t u s s' h (hW t),
    fun t => LInv_step N u t s s' h (hL t) hg1 hg2, ?_, ?_, ?_⟩
  · intro r hr
    rcases step_log N u s s' h with e | ⟨e, hp⟩ | ⟨e, hp⟩ | ⟨e, hp⟩ | ⟨e, hp⟩
    · rw [e]; exact hB0 r hr
    all_goals rw [e]
    all_goals apply Before_append_one _ _ _ _ (hB0 r hr)
    all_goals intro er
    all_goals subst er
    all_goals simp at hr
    all_goals exact main_started s hS (hL MAIN) u hr (by rw [hp]; simp)
  · rcases step_log N u s s' h with e | ⟨e, hp⟩ | ⟨e, hp⟩ | ⟨e, hp⟩ | ⟨e, hp⟩
    · rw [e]; exact hB1
    all_goals rw [e]
    all_goals apply Before_append_one _ _ _ _ hB1
    all_goals intro er
    all_goals simp at er
    have hu : u = MAIN := er
    subst hu
    have hP := hS.1
    rw [hp] at hP
    apply mem_of_linesOf T1
    rw [done_logged N s T1 (hW T1) (hL T1) hP.1]
    simp
  · rcases step_log N u s s' h with e | ⟨e, hp⟩ | ⟨e, hp⟩ | ⟨e, hp⟩ | ⟨e, hp⟩
    · rw [e]; exact hB2
    all_goals rw [e]
    all_goals apply Before_append_one _ _ _ _ hB2
    all_goals intro er
    all_goals simp at er
    have hu : u = MAIN := er
    subst hu
    have hP := hS.1
    rw [hp] at hP
    apply mem_of_linesOf T2
    rw [done_logged N s T2 (hW T2) (hL T2) hP.2]
    simp

theorem MainInv_exec (N : Nat) (hN : (N : Int) ≤ INT_MAX) (sched : List Tid)
    (s s' : State) (h : exec N sched s = some s') (hI : MainInv N s) : MainInv N s' := by
  induction sched generalizing s with
  | nil =>
    simp [exec] at h
    subst h
    exact hI
  | cons u us ih =>
    simp only [exec] at h
    cases hs : step N u s with
    | none => simp [hs] at h
    | some s1 =>
      simp [hs] at h
      exact ih s1 h (MainInv_step N hN u s s1 hs hI)

theorem bump_iterate_zero (N : Nat) (hN : (N : Int) ≤ INT_MAX) : bump^[N] 0 = (N : Int) := by
  have h := bump_iterate N 0 (by unfold INT_MIN; omega) (by simpa using hN)
  simpa using h

theorem main_completes (N : Nat) (hN : (N : Int) ≤ INT_MAX) :
    ∃ s', exec N (mainSchedule N) initMain = some s' ∧ (s'.thr MAIN).pc = Pc.mRet ∧
      s'.exit = some 0 ∧
      s'.log = [⟨MAIN, Msg.mainStarts⟩, ⟨T1, Msg.fStarts⟩, ⟨T1, Msg.fCompletes N⟩,
        ⟨T2, Msg.fStarts⟩, ⟨T2, Msg.fCompletes N⟩, ⟨MAIN, Msg.mainCompletes⟩] := by
  have d01 : MAIN ≠ T1 := by decide
  have d02 : MAIN ≠ T2 := by decide
  have d12 : T1 ≠ T2 := by decide
  obtain ⟨s3, e3⟩ : ∃ s3, exec N [MAIN, MAIN, MAIN] initMain = some s3 := by
    simp [exec, step, initMain, MAIN, T1, T2, Function.update_apply]
  have f3 : s3.thr MAIN = ⟨Pc.mJoin1, 0, 0⟩ ∧ s3.thr T1 = entryThread ∧
      s3.thr T2 = entryThread ∧ s3.counter T1 = 0 ∧ s3.counter T2 = 0 ∧
      s3.log = [⟨MAIN, Msg.mainStarts⟩] ∧ s3.exit = none := by
    simp [exec, step, initMain, MAIN, T1, T2, Function.update_apply] at e3
    subst e3
    simp [MAIN, T1, T2, Function.update_apply, entryThread]
  obtain ⟨m3, a3, b3, ca3, cb3, l3, x3⟩ := f3
  obtain ⟨s4, e4, p4, c4, l4, o4, _, _⟩ := full_run N hN T1 s3 (by rw [a3]; rfl)
  have b4 : s4.thr T2 = entryThread := by rw [(o4.2 T2 d12.symm).1, b3]
  have cb4 : s4.counter T2 = 0 := by rw [(o4.2 T2 d12.symm).2, cb3]
  obtain ⟨s5, e5, p5, c5, l5, o5, _, _⟩ := full_run N hN T2 s4 (by rw [b4]; rfl)
  have m5 : s5.thr MAIN = ⟨Pc.mJoin1, 0, 0⟩ := by
    rw [(o5.2 MAIN d02).1, (o4.2 MAIN d01).1, m3]
  have a5 : (s5.thr T1).pc = Pc.fRet := by rw [(o5.2 T1 d12).1, p4]
  have x5 : s5.exit = none := by rw [o5.1, o4.1, x3]
  have hl5 : s5.log = [⟨MAIN, Msg.mainStarts⟩, ⟨T1, Msg.fStarts⟩, ⟨T1, Msg.fCompletes N⟩,
        ⟨T2, Msg.fStarts⟩, ⟨T2, Msg.fCompletes N⟩] := by
    rw [l5, l4, l3, cb4, ca3, bump_iterate_zero N hN]
    simp
  obtain ⟨s6, e6⟩ : ∃ s6, exec N [MAIN, MAIN, MAIN, MAIN] s5 = some s6 := by
    simp [exec, step, m5, a5, p5, Function.update_apply, d01, d02, d01.symm, d02.symm]
  have f6 : (s6.thr MAIN).pc = Pc.mRet ∧ s6.exit = some 0 ∧
      s6.log = s5.log ++ [⟨MAIN, Msg.mainCompletes⟩] := by
    simp [exec, step, m5, a5, p5, Function.update_apply, d01, d02, d01.symm, d02.symm] at e6
    subst e6
    simp
  refine ⟨s6, ?_, f6.1, f6.2.1, ?_⟩
  · unfold mainSchedule
    rw [exec_append, e3]
    show exec N _ s3 = some s6
    rw [exec_append, e4]
    show exec N _ s4 = some s6
    rw [exec_append, e5]
    exact e6
  · rw [f6.2.2, hl5]
    simp

theorem NoMain_step (N : Nat) (u : Tid) (s s' : State) (h : step N u s = some s')
    (hM : NoMain s) : NoMain s' := by
  intro t
  have hu := hM u
  have ht := hM t
  rcases hth : s.thr u with ⟨pc, i, loc⟩
  rw [hth] at hu
  cases pc <;> simp [Pc.inMain] at hu
  all_goals simp [step, hth] at h
  all_goals subst h
  all_goals simp [Function.update_apply]
  all_goals split_ifs
  all_goals first | exact ht | rfl

theorem PoolInv_init (N K : Nat) : PoolInv N (initWorkers K) := by
  refine ⟨?_, ?_, ?_⟩
  · intro t
    by_cases h : t < K <;> simp [initWorkers, h, entryThread, idleThread, Pc.inMain]
  · intro t
    by_cases h : t < K <;> simp [initWorkers, h, entryThread, idleThread, WInv]
  · intro t
    by_cases h : t < K <;>
      simp [initWorkers, h, entryThread, idleThread, LInv, linesOf, emitted]

theorem PoolInv_step (N : Nat) (hN : (N : Int) ≤ INT_MAX) (u : Tid) (s s' : State)
    (h : step N u s = some s') (hI : PoolInv N s) : PoolInv N s' := by
  obtain ⟨hM, hW, hL⟩ := hI
  have hg1 : (s.thr u).pc = Pc.mSpawn1 → (s.thr T1).pc = Pc.idle := by
    intro hp
    have := hM u
    rw [hp] at this
    simp [Pc.inMain] at this
  have hg2 : (s.thr u).pc = Pc.mSpawn2 → (s.thr T2).pc = Pc.idle := by
    intro hp
    have := hM u
    rw [hp] at this
    simp [Pc.inMain] at this
  exact ⟨NoMain_step N u s s' h hM, fun t => WInv_step N hN t u s s' h (hW t),
    fun t => LInv_step N u t s s' h (hL t) hg1 hg2⟩

theorem PoolInv_exec (N : Nat) (hN : (N : Int) ≤ INT_MAX) (sched : List Tid)
    (s s' : State) (h : exec N sched s = some s') (hI : PoolInv N s) : PoolInv N s' := by
  induction sched generalizing s with
  | nil =>
    simp [exec] at h
    subst h
    exact hI
  | cons u us ih =>
    simp only [exec] at h
    cases hs : step N u s with
    | none => simp [hs] at h
    | some s1 =>
      simp [hs] at h
      exact ih s1 h (PoolInv_step N hN u s s1 hs hI)

theorem pool_upto (N : Nat) (hN : (N : Int) ≤ INT_MAX) (K j : Nat) (hj : j ≤ K) :
    ∃ s', exec N (poolSchedule N j) (initWorkers K) = some s' ∧
      (∀ t, t < j → (s'.thr t).pc = Pc.fRet) ∧
      (∀ t, j ≤ t → s'.thr t = (initWorkers K).thr t) := by
  induction j with
  | zero => exact ⟨initWorkers K, by simp [poolSchedule, exec], by simp, by simp⟩
  | succ j ih =>
    obtain ⟨s1, e1, d1, r1⟩ := ih (by omega)
    have hpc : (s1.thr j).pc = Pc.fLogStart := by
      rw [r1 j (le_refl j)]
      have : j < K := by omega
      simp [initWorkers, this, entryThread]
    obtain ⟨s2, e2, p2, _, _, o2, _, _⟩ := full_run N hN j s1 hpc
    refine ⟨s2, ?_, ?_, ?_⟩
    · simp only [poolSchedule]
      rw [exec_append, e1]
      exact e2
    · intro t ht
      by_cases htj : t = j
      · subst htj; exact p2
      · rw [(o2.2 t htj).1]
        exact d1 t (by omega)
    · intro t ht
      have htj : t ≠ j := by omega
      rw [(o2.2 t htj).1]
      exact r1 t (by omega)

theorem pool_completes (N : Nat) (hN : (N : Int) ≤ INT_MAX) (K : Nat) :
    ∃ s', exec N (poolSchedule N K) (initWorkers K) = some s' ∧
      ∀ t, t < K → (s'.thr t).pc = Pc.fRet := by
  obtain ⟨s', e, d, _⟩ := pool_upto N hN K K (le_refl K)
  exact ⟨s', e, d⟩

theorem RInv_step (N : Nat) (hN : INT_MAX < (N : Int)) (t u : Tid) (s s' : State)
    (h : step N u s = some s') (hI : RInv (s.thr t) (s.counter t)) :
    RInv (s'.thr t) (s'.counter t) := by
  have hw : ∀ x, wrapInt x ≤ INT_MAX := fun x => (wrapInt_range x).2
  have h00 : (0 : Int) ≤ INT_MAX := by decide
  by_cases hut : u = t
  · subst hut
    rcases hth : s.thr u with ⟨pc, i, loc⟩
    rw [hth] at hI
    obtain ⟨h1, h2, h3, h4, h5⟩ := hI
    have hlt : i < (N : Int) := lt_of_le_of_lt h3 hN
    cases pc <;> simp [step, hth, hlt] at h
    all_goals first | subst h | (obtain ⟨_, h⟩ := h; subst h)
    all_goals simp [RInv, Function.update_apply, entryThread, hth] at h1 h2 h3 h4 h5 ⊢
    all_goals (try split_ifs)
    all_goals simp_all
  · have htu : ¬ t = u := fun e => hut e.symm
    rcases hth : s.thr u with ⟨pc, i, loc⟩
    cases pc <;> simp [step, hth] at h
    all_goals first | subst h | (obtain ⟨_, h⟩ := h; subst h)
    all_goals simp [Function.update_apply, htu]
    all_goals (try exact hI)
    all_goals split_ifs with h1
    all_goals first | exact hI | simp [RInv, entryThread, h00]

theorem RInv_exec (N : Nat) (hN : INT_MAX < (N : Int)) (t : Tid) (sched : List Tid)
    (s s' : State) (h : exec N sched s = some s')
    (hI : RInv (s.thr t) (s.counter t)) : RInv (s'.thr t) (s'.counter t) := by
  induction sched generalizing s with
  | nil =>
    simp [exec] at h
    subst h
    exact hI
  | cons u us ih =>
    simp only [exec] at h
    cases hs : step N u s with
    | none => simp [hs] at h
    | some s1 =>
      simp [hs] at h
      exact ih s1 h (RInv_step N hN t u s s1 hs hI)

theorem NoRespawn_step (N : Nat) (u t : Tid) (s s' : State) (h : step N u s = some s')
    (hR : NoRespawn t s) : NoRespawn t s' := by
  intro v
  have hu := hR u
  have hv := hR v
  rcases hth : s.thr u with ⟨pc, i, loc⟩
  rw [hth] at hu
  cases pc <;> simp [step, hth] at h
  all_goals first | subst h | (obtain ⟨_, h⟩ := h; subst h)
  all_goals simp [Function.update_apply, willSpawn, entryThread] at hu ⊢
  all_goals split_ifs
  all_goals first | exact hv | rfl | simp [willSpawn, hu]

theorem RelLog_step (N : Nat) (u t : Tid) (l0 : List LogRec) (s s' : State)
    (h : step N u s = some s') (hR : NoRespawn t s) (hI : RelLog t l0 s) :
    RelLog t l0 s' := by
  obtain ⟨hF, hL⟩ := hI
  by_cases hut : u = t
  · subst hut
    rcases hth : s.thr u with ⟨pc, i, loc⟩
    rw [hth] at hF hL
    cases pc <;> simp [Pc.inF] at hF
    all_goals simp [step, hth] at h
    all_goals subst h
    all_goals simp [RelLog, emitted, linesOf_append, linesOf_self, Function.update_apply,
      Pc.inF] at hL ⊢
    all_goals (try simp [hL])
    all_goals (split_ifs <;> simp)
  · have htu : ¬ t = u := fun e => hut e.symm
    have hu := hR u
    rcases hth : s.thr u with ⟨pc, i, loc⟩
    rw [hth] at hu
    cases pc <;> simp [step, hth] at h
    all_goals first | subst h | (obtain ⟨_, h⟩ := h; subst h)
    all_goals simp [willSpawn] at hu
    all_goals simp [RelLog, linesOf_append, linesOf_other _ _ _ hut, Function.update_apply,
      htu, hu]
    all_goals exact ⟨hF, hL⟩

theorem RelLog_exec (N : Nat) (t : Tid) (l0 : List LogRec) (sched : List Tid)
    (s s' : State) (h : exec N sched s = some s') (hR : NoRespawn t s)
    (hI : RelLog t l0 s) : RelLog t l0 s' := by
  induction sched generalizing s with
  | nil =>
    simp [exec] at h
    subst h
    exact hI
  | cons u us ih =>
    simp only [exec] at h
    cases hs : step N u s with
    | none => simp [hs] at h
    | some s1 =>
      simp [hs] at h
      exact ih s1 h (NoRespawn_step N u t s s1 hs hR) (RelLog_step N u t l0 s s1 hs hR hI)

theorem mem_linesOf_self (r : LogRec) (l : List LogRec) (h : r ∈ l) : r ∈ linesOf r.tid l := by
  simp [linesOf, h]

theorem completes_value (N : Nat) (s : State) (t : Tid) (v : Int)
    (hW : WInv N (s.thr t) (s.counter t)) (hL : LInv t s)
    (hm : (⟨t, Msg.fCompletes v⟩ : LogRec) ∈ s.log) : v = N := by
  have h1 := mem_linesOf_self _ _ hm
  simp only at h1
  rw [hL] at h1
  rcases hp : (s.thr t).pc <;> rw [hp] at h1 <;> simp [emitted] at h1
  simp [WInv, hp] at hW
  rw [h1, hW]

/-- C1, as amended: for every repetition count `N ≤ INT_MAX` (so for every
`N` with `1 ≤ N ≤ INT_MAX`), running `f` once on a freshly started thread (at the entry of `f`, its counter
instance at `0`) with loop bound `N` returns after `fSteps N` steps and leaves
that thread's counter at exactly `N`. -/
theorem C1_single_worker_counts_to_N (N : Nat) (hN : (N : Int) ≤ INT_MAX)
    (t : Tid) (s : State) (hpc : (s.thr t).pc = Pc.fLogStart) (hc : s.counter t = 0) :
    ∃ s', exec N (List.replicate (fSteps N) t) s = some s' ∧
      (s'.thr t).pc = Pc.fRet ∧ step N t s' = none ∧ s'.counter t = (N : Int) := by
  obtain ⟨s', e, p, c, _, _, n, _⟩ := full_run N hN t s hpc
  refine ⟨s', e, p, n, ?_⟩
  rw [c, hc, bump_iterate_zero N hN]

/-- C1, witness: the program's own bound `N = 1,000,000` on the single
worker of `initWorkers 1`; the counter ends at `1,000,000`. -/
theorem C1_single_worker_counts_to_N_witness :
    (LOOP_BOUND : Int) ≤ INT_MAX ∧
    ((initWorkers 1).thr 0).pc = Pc.fLogStart ∧ (initWorkers 1).counter 0 = 0 ∧
    ∃ s', exec LOOP_BOUND (List.replicate (fSteps LOOP_BOUND) 0) (initWorkers 1) = some s' ∧
      (s'.thr 0).pc = Pc.fRet ∧ step LOOP_BOUND 0 s' = none ∧
      s'.counter 0 = ((1000000 : Nat) : Int) :=
  ⟨by decide, rfl, rfl,
    C1_single_worker_counts_to_N LOOP_BOUND (by decide) 0 (initWorkers 1) rfl rfl⟩

/-- C1, counterexample: with the repetition count `N = 2^31` the single
worker of `initWorkers 1` never returns from `f`, and its 32-bit counter never
holds `N`, however many steps it takes. -/
theorem C1_counterexample :
    ¬ ∃ (k : Nat) (s' : State),
        exec 2147483648 (List.replicate k 0) (initWorkers 1) = some s' ∧
        ((s'.thr 0).pc = Pc.fRet ∨ s'.counter 0 = 2147483648) := by
  rintro ⟨k, s', e, h⟩
  have hI : RInv ((initWorkers 1).thr 0) ((initWorkers 1).counter 0) := by
    simp [RInv, initWorkers, entryThread, INT_MAX]
  obtain ⟨_, h2, _, _, h5⟩ :=
    RInv_exec 2147483648 (by decide) 0 (List.replicate k 0) (initWorkers 1) s' e hI
  rcases h with h | h
  · exact h2 h
  · rw [h] at h5
    exact absurd h5 (by decide)

/-- C2, as amended: for every number `K` of workers (so for every `K ≥ 2`)
and every loop bound `N ≤ INT_MAX`, in every state reached from `initWorkers K` by any interleaving
of the workers' steps, each worker that has returned from `f` has its own
counter at `N` and has printed exactly its start line and its completion line
with the value `N`; no completion line on the console carries any other value;
and an interleaving in which all `K` workers return exists. -/
theorem C2_workers_each_report_N (K N : Nat) (hN : (N : Int) ≤ INT_MAX) :
    (∀ (sched : List Tid) (s' : State), exec N sched (initWorkers K) = some s' →
      (∀ t, t < K → (s'.thr t).pc = Pc.fRet →
        s'.counter t = (N : Int) ∧
        linesOf t s'.log = [⟨t, Msg.fStarts⟩, ⟨t, Msg.fCompletes N⟩]) ∧
      (∀ t v, (⟨t, Msg.fCompletes v⟩ : LogRec) ∈ s'.log → v = (N : Int))) ∧
    (∃ (sched : List Tid) (s' : State), exec N sched (initWorkers K) = some s' ∧
      ∀ t, t < K → (s'.thr t).pc = Pc.fRet) := by
  refine ⟨?_, ?_⟩
  · intro sched s' e
    obtain ⟨_, hW, hL⟩ := PoolInv_exec N hN sched (initWorkers K) s' e (PoolInv_init N K)
    refine ⟨?_, ?_⟩
    · intro t _ hp
      refine ⟨?_, done_logged N s' t (hW t) (hL t) hp⟩
      have := hW t
      simp [WInv, hp] at this
      exact this
    · intro t v hm
      exact completes_value N s' t v (hW t) (hL t) hm
  · obtain ⟨s', e, d⟩ := pool_completes N hN K
    exact ⟨poolSchedule N K, s', e, d⟩

/-- C2, witness: two workers and loop bound `1`. -/
theorem C2_workers_each_report_N_witness :
    ((1 : Nat) : Int) ≤ INT_MAX ∧
    ((∀ (sched : List Tid) (s' : State), exec 1 sched (initWorkers 2) = some s' →
      (∀ t, t < 2 → (s'.thr t).pc = Pc.fRet →
        s'.counter t = ((1 : Nat) : Int) ∧
        linesOf t s'.log = [⟨t, Msg.fStarts⟩, ⟨t, Msg.fCompletes (1 : Nat)⟩]) ∧
      (∀ t v, (⟨t, Msg.fCompletes v⟩ : LogRec) ∈ s'.log → v = ((1 : Nat) : Int))) ∧
    (∃ (sched : List Tid) (s' : State), exec 1 sched (initWorkers 2) = some s' ∧
      ∀ t, t < 2 → (s'.thr t).pc = Pc.fRet)) :=
  ⟨by decide, C2_workers_each_report_N 2 1 (by decide)⟩

/-- C2, counterexample: with two workers and `N = 2^31` no interleaving ever
brings worker `0` to the end of `f` or its 32-bit counter to `N`. -/
theorem C2_counterexample :
    ¬ ∃ (sched : List Tid) (s' : State),
        exec 2147483648 sched (initWorkers 2) = some s' ∧
        ((s'.thr 0).pc = Pc.fRet ∨ s'.counter 0 = 2147483648) := by
  rintro ⟨sched, s', e, h⟩
  have hI : RInv ((initWorkers 2).thr 0) ((initWorkers 2).counter 0) := by
    simp [RInv, initWorkers, entryThread, INT_MAX]
  obtain ⟨_, h2, _, _, h5⟩ :=
    RInv_exec 2147483648 (by decide) 0 sched (initWorkers 2) s' e hI
  rcases h with h | h
  · exact h2 h
  · rw [h] at h5
    exact absurd h5 (by decide)

/-- C3: a step of `f` executed by thread `t` leaves the counter instance and
the control state of every other thread `u ≠ t` unchanged, and what it does to
`t` (new control state, new counter value, line printed) is determined by
`t`'s own control state and counter instance alone: from any other state that
agrees on these two, the step has the same outcome for `t`. -/
theorem C3_step_touches_own_counter_only (N : Nat) (t : Tid) (s s' : State)
    (hF : (s.thr t).pc.inF = true) (h : step N t s = some s') :
    (∀ u, u ≠ t → s'.counter u = s.counter u ∧ s'.thr u = s.thr u) ∧
    (∀ s2 : State, s2.thr t = s.thr t → s2.counter t = s.counter t →
      ∃ s2', step N t s2 = some s2' ∧ s2'.thr t = s'.thr t ∧
        s2'.counter t = s'.counter t ∧
        ∃ out, s'.log = s.log ++ out ∧ s2'.log = s2.log ++ out) := by
  rcases hth : s.thr t with ⟨pc, i, loc⟩
  rw [hth] at hF
  refine ⟨?_, ?_⟩
  · intro u hu
    cases pc <;> simp [Pc.inF] at hF
    all_goals simp [step, hth] at h
    all_goals subst h
    all_goals simp [Function.update_apply, hu]
  · intro s2 e1 e2
    cases pc <;> simp [Pc.inF] at hF
    all_goals simp [step, hth] at h
    all_goals subst h
    all_goals simp [step, e1, e2, hth]

/-- C3, witness: worker `0` of a pool of two at its write `counter = local`,
reached after the other worker has already written `1` to its own instance. -/
theorem C3_step_touches_own_counter_only_witness :
    ∃ s s', exec 3 [1, 1, 1, 1, 1, 1, 0, 0, 0, 0, 0] (initWorkers 2) = some s ∧
      (s.thr 0).pc = Pc.fWrite ∧ s.counter 1 = 1 ∧ step 3 0 s = some s' ∧
      s'.counter 0 = 1 ∧
      (∀ u, u ≠ 0 → s'.counter u = s.counter u ∧ s'.thr u = s.thr u) := by
  refine ⟨_, _, rfl, rfl, rfl, rfl, rfl, ?_⟩
  exact And.left (C3_step_touches_own_counter_only 3 0 _ _ (by rfl) (by rfl))

theorem workers_done_of_logged (s : State) (hS : Struct s) (hL : LInv MAIN s)
    (hm : (⟨MAIN, Msg.mainCompletes⟩ : LogRec) ∈ s.log) :
    (s.thr T1).pc = Pc.fRet ∧ (s.thr T2).pc = Pc.fRet := by
  have h1 := mem_linesOf_self _ _ hm
  simp only at h1
  rw [hL] at h1
  have hP := hS.1
  rcases hp : (s.thr MAIN).pc <;> rw [hp] at h1 hP <;> simp [emitted] at h1 <;>
    simp [Phase] at hP <;> exact hP

theorem loop_bound_fits : (LOOP_BOUND : Int) ≤ INT_MAX := by decide

theorem main_progress (N : Nat) (s : State) (hS : Struct s)
    (hp : (s.thr MAIN).pc ≠ Pc.mRet) : ∃ u s', step N u s = some s' := by
  have hP := hS.1
  have worker : ∀ u, (s.thr u).pc.inF = true → (s.thr u).pc ≠ Pc.fRet →
      ∃ s', step N u s = some s' := by
    intro u hF hR
    rcases hth : s.thr u with ⟨pc, i, loc⟩
    rw [hth] at hF hR
    cases pc <;> simp [Pc.inF] at hF hR <;> simp [step, hth]
  rcases hm : s.thr MAIN with ⟨pm, im, lm⟩
  rw [hm] at hP hp
  cases pm <;> simp [Phase] at hP hp
  · exact ⟨MAIN, by simp [step, hm]⟩
  · exact ⟨MAIN, by simp [step, hm]⟩
  · exact ⟨MAIN, by simp [step, hm]⟩
  · by_cases h1 : (s.thr T1).pc = Pc.fRet
    · exact ⟨MAIN, by simp [step, hm, h1]⟩
    · exact ⟨T1, worker T1 hP.1 h1⟩
  · by_cases h2 : (s.thr T2).pc = Pc.fRet
    · exact ⟨MAIN, by simp [step, hm, h2]⟩
    · exact ⟨T2, worker T2 hP.2 h2⟩
  · exact ⟨MAIN, by simp [step, hm]⟩
  · exact ⟨MAIN, by simp [step, hm]⟩

/-- C4: in every state the program reaches, under any interleaving, the
exit status is either not yet set or `0`, and every completion line on the
console carries `1,000,000`; once `main` has returned the exit status is `0`
and each of `t1`, `t2` has printed exactly its start line and its completion
line with `1,000,000`; while `main` has not returned some thread can take a
step; and an execution in which `main` returns exists. -/
theorem C4_program_reports_and_exits_zero (sched : List Tid) (s' : State)
    (h : exec LOOP_BOUND sched initMain = some s') :
    (s'.exit = none ∨ s'.exit = some 0) ∧
    (∀ t v, (⟨t, Msg.fCompletes v⟩ : LogRec) ∈ s'.log → v = 1000000) ∧
    ((s'.thr MAIN).pc = Pc.mRet →
      s'.exit = some 0 ∧
      linesOf T1 s'.log = [⟨T1, Msg.fStarts⟩, ⟨T1, Msg.fCompletes 1000000⟩] ∧
      linesOf T2 s'.log = [⟨T2, Msg.fStarts⟩, ⟨T2, Msg.fCompletes 1000000⟩]) ∧
    ((s'.thr MAIN).pc ≠ Pc.mRet → ∃ u s'', step LOOP_BOUND u s' = some s'') ∧
    (∃ (sched1 : List Tid) (s1 : State), exec LOOP_BOUND sched1 initMain = some s1 ∧
      (s1.thr MAIN).pc = Pc.mRet ∧ s1.exit = some 0) := by
  obtain ⟨hS, hW, hL, _, _, _⟩ :=
    MainInv_exec LOOP_BOUND loop_bound_fits sched initMain s' h (MainInv_init LOOP_BOUND)
  refine ⟨?_, ?_, ?_, main_progress LOOP_BOUND s' hS, ?_⟩
  · rw [hS.2.2]
    split_ifs <;> simp
  · intro t v hm
    have := completes_value LOOP_BOUND s' t v (hW t) (hL t) hm
    simpa [LOOP_BOUND] using this
  · intro hp
    have hP := hS.1
    rw [hp] at hP
    refine ⟨?_, ?_, ?_⟩
    · rw [hS.2.2, if_pos hp]
    · have := done_logged LOOP_BOUND s' T1 (hW T1) (hL T1) hP.1
      simpa [LOOP_BOUND] using this
    · have := done_logged LOOP_BOUND s' T2 (hW T2) (hL T2) hP.2
      simpa [LOOP_BOUND] using this
  · obtain ⟨s1, e, p, x, _⟩ := main_completes LOOP_BOUND loop_bound_fits
    exact ⟨mainSchedule LOOP_BOUND, s1, e, p, x⟩

/-- C4, witness: the complete execution `mainSchedule`, in which `t1` runs
to the end before `t2` starts. -/
theorem C4_program_reports_and_exits_zero_witness :
    ∃ s', exec LOOP_BOUND (mainSchedule LOOP_BOUND) initMain = some s' ∧
      (s'.thr MAIN).pc = Pc.mRet ∧ s'.exit = some 0 ∧
      linesOf T1 s'.log = [⟨T1, Msg.fStarts⟩, ⟨T1, Msg.fCompletes 1000000⟩] ∧
      linesOf T2 s'.log = [⟨T2, Msg.fStarts⟩, ⟨T2, Msg.fCompletes 1000000⟩] := by
  obtain ⟨s', e, p, _, _⟩ := main_completes LOOP_BOUND loop_bound_fits
  have h := (C4_program_reports_and_exits_zero (mainSchedule LOOP_BOUND) s' e).2.2.1 p
  exact ⟨s', e, p, h.1, h.2.1, h.2.2⟩

/-- C7: in every state the program reaches, under any interleaving, every
line on the console printed by a thread other than `main` is preceded by the
line `main() starts`, and every occurrence of the line `main() completes` is
preceded by the completion lines of both `t1` and `t2`, both of which have
returned from `f`. -/
theorem C7_main_lines_bracket_workers (sched : List Tid) (s' : State)
    (h : exec LOOP_BOUND sched initMain = some s') :
    (∀ (r : LogRec) (pre post : List LogRec), r.tid ≠ MAIN → s'.log = pre ++ r :: post →
      (⟨MAIN, Msg.mainStarts⟩ : LogRec) ∈ pre) ∧
    (∀ (pre post : List LogRec), s'.log = pre ++ ⟨MAIN, Msg.mainCompletes⟩ :: post →
      (⟨T1, Msg.fCompletes 1000000⟩ : LogRec) ∈ pre ∧
      (⟨T2, Msg.fCompletes 1000000⟩ : LogRec) ∈ pre ∧
      (s'.thr T1).pc = Pc.fRet ∧ (s'.thr T2).pc = Pc.fRet) := by
  obtain ⟨hS, hW, hL, hB0, hB1, hB2⟩ :=
    MainInv_exec LOOP_BOUND loop_bound_fits sched initMain s' h (MainInv_init LOOP_BOUND)
  refine ⟨?_, ?_⟩
  · intro r pre post hr e
    exact hB0 r hr pre post e
  · intro pre post e
    have hm : (⟨MAIN, Msg.mainCompletes⟩ : LogRec) ∈ s'.log := by
      rw [e]; simp
    have hd := workers_done_of_logged s' hS (hL MAIN) hm
    have b1 := hB1 pre post e
    have b2 := hB2 pre post e
    simp only [LOOP_BOUND] at b1 b2
    exact ⟨by simpa using b1, by simpa using b2, hd.1, hd.2⟩

/-- C7, witness: the complete execution `mainSchedule`; its console is
`main() starts`, the two lines of `t1`, the two lines of `t2`,
`main() completes`. -/
theorem C7_main_lines_bracket_workers_witness :
    ∃ s', exec LOOP_BOUND (mainSchedule LOOP_BOUND) initMain = some s' ∧
      s'.log = [⟨MAIN, Msg.mainStarts⟩, ⟨T1, Msg.fStarts⟩, ⟨T1, Msg.fCompletes 1000000⟩,
        ⟨T2, Msg.fStarts⟩, ⟨T2, Msg.fCompletes 1000000⟩] ++
        ⟨MAIN, Msg.mainCompletes⟩ :: [] ∧
      (⟨T1, Msg.fCompletes 1000000⟩ : LogRec) ∈
        [⟨MAIN, Msg.mainStarts⟩, ⟨T1, Msg.fStarts⟩, ⟨T1, Msg.fCompletes 1000000⟩,
        (⟨T2, Msg.fStarts⟩ : LogRec), ⟨T2, Msg.fCompletes 1000000⟩] ∧
      (s'.thr T1).pc = Pc.fRet ∧ (s'.thr T2).pc = Pc.fRet := by
  obtain ⟨s', e, _, _, l⟩ := main_completes LOOP_BOUND loop_bound_fits
  have hl : s'.log = [⟨MAIN, Msg.mainStarts⟩, ⟨T1, Msg.fStarts⟩,
      ⟨T1, Msg.fCompletes 1000000⟩, ⟨T2, Msg.fStarts⟩, ⟨T2, Msg.fCompletes 1000000⟩] ++
      ⟨MAIN, Msg.mainCompletes⟩ :: [] := by
    rw [l]; simp [LOOP_BOUND]
  have h := (C7_main_lines_bracket_workers (mainSchedule LOOP_BOUND) s' e).2 _ _ hl
  exact ⟨s', e, hl, h.1, h.2.2.1, h.2.2.2⟩

theorem upto_run (N : Nat) (hN : (N : Int) ≤ INT_MAX) (t : Tid) (s : State)
    (hpc : (s.thr t).pc = Pc.fLogStart) (k : Nat) (hk : k ≤ N) :
    ∃ sk, exec N (List.replicate (2 + 5 * k) t) s = some sk ∧ (sk.thr t).pc = Pc.fTest ∧
      (sk.thr t).i = (k : Int) ∧ sk.counter t = bump^[k] (s.counter t) ∧
      sk.log = s.log ++ [⟨t, Msg.fStarts⟩] := by
  obtain ⟨s1, e1, p1, i1, c1, l1, _, _⟩ := prologue_run N t s hpc
  obtain ⟨s2, e2, p2, i2, c2, l2, _, _⟩ :=
    loop_run N hN t k s1 p1 (by rw [i1]) (by rw [i1]; simp; exact_mod_cast hk)
  refine ⟨s2, ?_, p2, ?_, ?_, ?_⟩
  · rw [List.replicate_add, exec_append, e1]
    exact e2
  · rw [i2, i1]; simp
  · rw [c2, c1]
  · rw [l2, l1]

/-- C5: a freshly started thread stands at the entry of `f` with its counter
instance at `0`, whatever the state it is started in; and from any state in
which thread `t` is freshly started, whatever the other threads hold and
however the threads interleave, when `t` stands at `int local = counter` in
the first iteration (`i = 0`) its counter instance is `0` and the read puts
`0` into `local`. -/
theorem C5_first_read_sees_zero (t : Tid) (s : State) (sched : List Tid) (s' : State)
    (hpc : (s.thr t).pc = Pc.fLogStart) (hc : s.counter t = 0)
    (h : exec LOOP_BOUND sched s = some s')
    (hr : (s'.thr t).pc = Pc.fRead) (hi : (s'.thr t).i = 0) :
    (∀ (u : Tid) (s0 : State),
      ((spawn u s0).thr u).pc = Pc.fLogStart ∧ (spawn u s0).counter u = 0) ∧
    s'.counter t = 0 ∧
    ∃ s'', step LOOP_BOUND t s' = some s'' ∧ (s''.thr t).pc = Pc.fAdd ∧
      (s''.thr t).loc = 0 := by
  have hW0 : WInv LOOP_BOUND (s.thr t) (s.counter t) := by simp [WInv, hpc, hc]
  have hW := WInv_exec LOOP_BOUND loop_bound_fits t sched s s' h hW0
  simp [WInv, hr, hi] at hW
  refine ⟨?_, hW.2, ?_⟩
  · intro u s0
    simp [entryThread]
  · simp [step, hr, hW.2]

/-- C5, witness: in a pool of two, worker `1` has already written `1` to
its own counter when worker `0` reaches its first read. -/
theorem C5_first_read_sees_zero_witness :
    ∃ s', exec LOOP_BOUND [1, 1, 1, 1, 1, 1, 0, 0, 0] (initWorkers 2) = some s' ∧
      s'.counter 1 = 1 ∧ (s'.thr 0).pc = Pc.fRead ∧ (s'.thr 0).i = 0 ∧
      s'.counter 0 = 0 ∧
      ∃ s'', step LOOP_BOUND 0 s' = some s'' ∧ (s''.thr 0).pc = Pc.fAdd ∧
        (s''.thr 0).loc = 0 := by
  refine ⟨_, rfl, rfl, rfl, rfl, ?_⟩
  exact And.right (C5_first_read_sees_zero 0 (initWorkers 2) [1, 1, 1, 1, 1, 1, 0, 0, 0] _
    (by rfl) (by rfl) (by rfl) (by rfl) (by rfl))

/-- C10: from any state in which thread `t` is freshly started (entry of
`f`, counter `0`), under any interleaving, while `t` runs `f` its counter stays
in `[0, 1,000,000]`, so does `i` once initialised, so does `local` between the
read and the write; `local + 1` at `local += 1` and `i + 1` at `i++` are at
most `1,000,000` and equal to their 32-bit wrap; and `[0, 1,000,000]` lies
within `[INT_MIN, INT_MAX]`. -/
theorem C10_no_overflow (t : Tid) (s : State) (sched : List Tid) (s' : State)
    (hpc : (s.thr t).pc = Pc.fLogStart) (hc : s.counter t = 0)
    (h : exec LOOP_BOUND sched s = some s') :
    ((s'.thr t).pc.inF = true → 0 ≤ s'.counter t ∧ s'.counter t ≤ 1000000) ∧
    ((s'.thr t).pc = Pc.fTest ∨ (s'.thr t).pc = Pc.fRead ∨ (s'.thr t).pc = Pc.fAdd ∨
      (s'.thr t).pc = Pc.fWrite ∨ (s'.thr t).pc = Pc.fInc ∨ (s'.thr t).pc = Pc.fLogDone →
      0 ≤ (s'.thr t).i ∧ (s'.thr t).i ≤ 1000000) ∧
    ((s'.thr t).pc = Pc.fAdd →
      0 ≤ (s'.thr t).loc ∧ (s'.thr t).loc + 1 ≤ 1000000 ∧
      wrapInt ((s'.thr t).loc + 1) = (s'.thr t).loc + 1) ∧
    ((s'.thr t).pc = Pc.fWrite → 0 ≤ (s'.thr t).loc ∧ (s'.thr t).loc ≤ 1000000) ∧
    ((s'.thr t).pc = Pc.fInc →
      (s'.thr t).i + 1 ≤ 1000000 ∧ wrapInt ((s'.thr t).i + 1) = (s'.thr t).i + 1) ∧
    INT_MIN ≤ 0 ∧ (1000000 : Int) ≤ INT_MAX := by
  have hW0 : WInv LOOP_BOUND (s.thr t) (s.counter t) := by simp [WInv, hpc, hc]
  have hW := WInv_exec LOOP_BOUND loop_bound_fits t sched s s' h hW0
  rcases hth : s'.thr t with ⟨pc, i, loc⟩
  rw [hth] at hW
  have hb : INT_MIN ≤ 0 ∧ (1000000 : Int) ≤ INT_MAX := by decide
  cases pc <;> simp [WInv, LOOP_BOUND, Pc.inF, hb] at hW ⊢
  all_goals (try unfold wrapInt)
  all_goals omega

/-- C10, witness: worker `0` of a pool of two at `local += 1` in its second
iteration, where `local` is `1`. -/
theorem C10_no_overflow_witness :
    ∃ s', exec LOOP_BOUND [0, 0, 0, 0, 0, 0, 0, 1, 0, 0] (initWorkers 2) = some s' ∧
      (s'.thr 0).pc = Pc.fAdd ∧ (s'.thr 0).loc = 1 ∧
      (0 ≤ (s'.thr 0).loc ∧ (s'.thr 0).loc + 1 ≤ 1000000 ∧
        wrapInt ((s'.thr 0).loc + 1) = (s'.thr 0).loc + 1) := by
  refine ⟨_, rfl, rfl, rfl, ?_⟩
  exact (C10_no_overflow 0 (initWorkers 2) [0, 0, 0, 0, 0, 0, 0, 1, 0, 0] _
    (by rfl) (by rfl) (by rfl)).2.2.1 (by rfl)

theorem pcTrace_stuck (N : Nat) (t : Tid) (fuel : Nat) (s : State)
    (h : step N t s = none) : pcTrace N t fuel s = [] := by
  cases fuel with
  | zero => rfl
  | succ n => simp [pcTrace, h]

theorem count_bodies (a : Pc) (n : Nat) :
    (List.replicate n bodyPcs).flatten.count a = n * bodyPcs.count a := by
  induction n with
  | zero => simp
  | succ n ih =>
    rw [List.replicate_succ, List.flatten_cons, List.count_append, ih]
    ring

/-- C8: run on its own from the entry of `f`, a thread returns from `f`
after `fSteps 1,000,000` steps and can then take no further step; with any
larger fuel the program points it executes are the two before the loop,
1,000,000 times the five of the loop (test, read, add, write, increment of
`i`), then the failing test and the final `log`, so the read, the add and the
write are each executed exactly 1,000,000 times; and for every `k < 1,000,000`
the thread stands at the test with `i = k` after `k` iterations, and five
steps later stands there again with `i = k + 1` and its counter bumped by one
in 32-bit arithmetic. -/
theorem C8_loop_body_runs_exactly_N_times (t : Tid) (s : State)
    (hpc : (s.thr t).pc = Pc.fLogStart) :
    (∃ s', exec LOOP_BOUND (List.replicate (fSteps LOOP_BOUND) t) s = some s' ∧
      (s'.thr t).pc = Pc.fRet ∧ step LOOP_BOUND t s' = none) ∧
    (∀ fuel, fSteps LOOP_BOUND ≤ fuel →
      pcTrace LOOP_BOUND t fuel s =
        [Pc.fLogStart, Pc.fInit] ++
        (List.replicate 1000000 [Pc.fTest, Pc.fRead, Pc.fAdd, Pc.fWrite, Pc.fInc]).flatten ++
        [Pc.fTest, Pc.fLogDone] ∧
      (pcTrace LOOP_BOUND t fuel s).count Pc.fRead = 1000000 ∧
      (pcTrace LOOP_BOUND t fuel s).count Pc.fAdd = 1000000 ∧
      (pcTrace LOOP_BOUND t fuel s).count Pc.fWrite = 1000000 ∧
      (pcTrace LOOP_BOUND t fuel s).count Pc.fInc = 1000000 ∧
      (pcTrace LOOP_BOUND t fuel s).count Pc.fTest = 1000001 ∧
      (pcTrace LOOP_BOUND t fuel s).count Pc.fLogDone = 1) ∧
    (∀ k : Nat, k < 1000000 →
      ∃ sk sk', exec LOOP_BOUND (List.replicate (2 + 5 * k) t) s = some sk ∧
        (sk.thr t).pc = Pc.fTest ∧ (sk.thr t).i = (k : Int) ∧
        exec LOOP_BOUND (List.replicate 5 t) sk = some sk' ∧
        (sk'.thr t).pc = Pc.fTest ∧ (sk'.thr t).i = (k : Int) + 1 ∧
        sk'.counter t = wrapInt (sk.counter t + 1)) := by
  obtain ⟨s', e, p, _, _, _, n, tr⟩ := full_run LOOP_BOUND loop_bound_fits t s hpc
  have htr : ∀ fuel, fSteps LOOP_BOUND ≤ fuel → pcTrace LOOP_BOUND t fuel s = fPcs LOOP_BOUND := by
    intro fuel hf
    obtain ⟨d, rfl⟩ := Nat.exists_eq_add_of_le hf
    rw [pcTrace_append LOOP_BOUND t (fSteps LOOP_BOUND) d s s' e, tr,
      pcTrace_stuck LOOP_BOUND t d s' n]
    simp
  refine ⟨⟨s', e, p, n⟩, ?_, ?_⟩
  · intro fuel hf
    rw [htr fuel hf]
    refine ⟨rfl, ?_, ?_, ?_, ?_, ?_, ?_⟩
    all_goals simp only [fPcs, List.count_append, count_bodies]
    all_goals simp [bodyPcs, LOOP_BOUND]
  · intro k hk
    obtain ⟨sk, ek, pk, ik, _, _⟩ :=
      upto_run LOOP_BOUND loop_bound_fits t s hpc k (by unfold LOOP_BOUND; omega)
    have hlt : (sk.thr t).i < (LOOP_BOUND : Int) := by
      rw [ik]; unfold LOOP_BOUND; exact_mod_cast hk
    obtain ⟨sk', e5, p5, i5, c5, _, _, _⟩ := iter_once LOOP_BOUND t sk pk hlt
    refine ⟨sk, sk', ek, pk, ik, e5, p5, ?_, c5⟩
    rw [i5, ik]
    apply wrapInt_of_range
    · unfold INT_MIN; omega
    · unfold INT_MAX; omega

/-- C8, witness: the single worker of `initWorkers 1`. -/
theorem C8_loop_body_runs_exactly_N_times_witness :
    ((initWorkers 1).thr 0).pc = Pc.fLogStart ∧
    (pcTrace LOOP_BOUND 0 (fSteps LOOP_BOUND) (initWorkers 1)).count Pc.fRead = 1000000 ∧
    (pcTrace LOOP_BOUND 0 (fSteps LOOP_BOUND + 1) (initWorkers 1)).count Pc.fWrite = 1000000 :=
  ⟨rfl,
    ((C8_loop_body_runs_exactly_N_times 0 (initWorkers 1) rfl).2.1 (fSteps LOOP_BOUND)
      (le_refl _)).2.1,
    ((C8_loop_body_runs_exactly_N_times 0 (initWorkers 1) rfl).2.1 (fSteps LOOP_BOUND + 1)
      (Nat.le_succ _)).2.2.2.1⟩

theorem Struct_noRespawn (s : State) (hS : Struct s) (u : Tid) (hu : u ≠ MAIN)
    (hi : (s.thr u).pc ≠ Pc.idle) : NoRespawn u s := by
  intro v
  by_cases hv : v = MAIN
  · subst hv
    obtain ⟨hP, hO, _⟩ := hS
    have key : (s.thr T1).pc = Pc.idle → (s.thr T2).pc = Pc.idle → False := by
      intro h1 h2
      by_cases e1 : u = T1
      · subst e1; exact hi h1
      · by_cases e2 : u = T2
        · subst e2; exact hi h2
        · exact hi (hO u hu e1 e2)
    rcases hm : (s.thr MAIN).pc <;> rw [hm] at hP <;> simp [Phase] at hP <;>
      simp [willSpawn]
    · exact (key hP.1 hP.2).elim
    · exact (key hP.1 hP.2).elim
    · intro e2
      subst e2
      exact hi hP.2
  · cases hw : willSpawn (s.thr v).pc u with
    | false => rfl
    | true =>
      have hin : (s.thr v).pc.inMain = true := by
        rcases hp : (s.thr v).pc <;> rw [hp] at hw <;> simp [willSpawn] at hw <;> rfl
      exact absurd (Struct_inMain s hS v hin) hv

theorem NoMain_noRespawn (s : State) (hM : NoMain s) (t : Tid) : NoRespawn t s := by
  intro v
  have h := hM v
  rcases hp : (s.thr v).pc <;> rw [hp] at h <;> simp [Pc.inMain] at h <;> rfl

/-- C6: an invocation of `f` by thread `t`, entered with any counter value,
any console and any state of the other threads, prints exactly two lines, the
start line then the completion line. Under every interleaving with the other
threads, as long as no thread has yet to start `t` afresh, the lines of `t` on
the console are those it had before the invocation, followed by nothing
while `t` has not taken its first step, by the start line alone from then
until the end of the loop (so at every access to the counter), and by the
start line and the completion line once `f` has returned; at the end of the
loop the one remaining step prints the completion line with the counter value
`t` holds there, and the value on that line is `t`'s own counter value. Run
without interruption the invocation does return, after `fSteps 1,000,000`
steps. The condition that no thread has yet to start `t` afresh holds of every
started worker in every state the program reaches, and of every thread in a
pool of workers. -/
theorem C6_two_records_in_order (t : Tid) (s : State)
    (hpc : (s.thr t).pc = Pc.fLogStart) (hNR : NoRespawn t s) :
    (∃ s', exec LOOP_BOUND (List.replicate (fSteps LOOP_BOUND) t) s = some s' ∧
      (s'.thr t).pc = Pc.fRet ∧ step LOOP_BOUND t s' = none ∧
      s'.log = s.log ++ [⟨t, Msg.fStarts⟩, ⟨t, Msg.fCompletes (s'.counter t)⟩]) ∧
    (∀ (sched : List Tid) (s' : State), exec LOOP_BOUND sched s = some s' →
      (s'.thr t).pc.inF = true ∧
      ((s'.thr t).pc = Pc.fLogStart → linesOf t s'.log = linesOf t s.log) ∧
      ((s'.thr t).pc ≠ Pc.fLogStart → (s'.thr t).pc ≠ Pc.fRet →
        linesOf t s'.log = linesOf t s.log ++ [⟨t, Msg.fStarts⟩]) ∧
      ((s'.thr t).pc = Pc.fLogDone →
        ∃ s'', step LOOP_BOUND t s' = some s'' ∧ (s''.thr t).pc = Pc.fRet ∧
          s''.counter t = s'.counter t ∧
          linesOf t s''.log = linesOf t s.log ++
            [⟨t, Msg.fStarts⟩, ⟨t, Msg.fCompletes (s'.counter t)⟩]) ∧
      ((s'.thr t).pc = Pc.fRet →
        linesOf t s'.log = linesOf t s.log ++
          [⟨t, Msg.fStarts⟩, ⟨t, Msg.fCompletes (s'.counter t)⟩])) ∧
    (∀ (sched0 : List Tid) (s0 : State) (u : Tid),
      exec LOOP_BOUND sched0 initMain = some s0 → u ≠ MAIN → (s0.thr u).pc ≠ Pc.idle →
      NoRespawn u s0) ∧
    (∀ (K : Nat) (sched0 : List Tid) (s0 : State) (u : Tid),
      exec LOOP_BOUND sched0 (initWorkers K) = some s0 → NoRespawn u s0) := by
  have h0 : RelLog t (linesOf t s.log) s := by
    simp [RelLog, hpc, Pc.inF, emitted]
  refine ⟨?_, ?_, ?_, ?_⟩
  rotate_left 2
  · intro sched0 s0 u e hu hi
    have hI := MainInv_exec LOOP_BOUND loop_bound_fits sched0 initMain s0 e
      (MainInv_init LOOP_BOUND)
    exact Struct_noRespawn s0 hI.1 u hu hi
  · intro K sched0 s0 u e
    have hI := PoolInv_exec LOOP_BOUND loop_bound_fits sched0 (initWorkers K) s0 e
      (PoolInv_init LOOP_BOUND K)
    exact NoMain_noRespawn s0 hI.1 u
  · obtain ⟨s', e, p, c, l, _, n, _⟩ := full_run LOOP_BOUND loop_bound_fits t s hpc
    refine ⟨s', e, p, n, ?_⟩
    rw [l, c]
  · intro sched s' e
    obtain ⟨hF, hL⟩ := RelLog_exec LOOP_BOUND t (linesOf t s.log) sched s s' e hNR h0
    rcases hth : s'.thr t with ⟨pc, i, loc⟩
    rw [hth] at hF hL
    cases pc <;> simp [Pc.inF] at hF
    all_goals simp [emitted] at hL
    all_goals simp [hL, step, hth, Pc.inF, linesOf_append, linesOf_self]

/-- C6, witness: worker `0` of a pool of two, interleaved with worker `1`,
stands at its first read with only its start line printed; and in the program
itself `t1`, once started, ends with exactly its two lines on a console that
also holds the lines of `main` and of `t2`. -/
theorem C6_two_records_in_order_witness :
    (∃ s', exec LOOP_BOUND [0, 1, 0, 1, 1, 0, 1] (initWorkers 2) = some s' ∧
      (s'.thr 0).pc = Pc.fRead ∧ (s'.thr 1).pc = Pc.fAdd ∧
      linesOf 0 s'.log = linesOf 0 (initWorkers 2).log ++ [⟨0, Msg.fStarts⟩]) ∧
    (∃ s2 s', exec LOOP_BOUND [MAIN, MAIN] initMain = some s2 ∧
      (s2.thr T1).pc = Pc.fLogStart ∧
      exec LOOP_BOUND (MAIN :: (List.replicate (fSteps LOOP_BOUND) T1 ++
        (List.replicate (fSteps LOOP_BOUND) T2 ++ [MAIN, MAIN, MAIN, MAIN]))) s2 = some s' ∧
      (s'.thr T1).pc = Pc.fRet ∧
      linesOf T1 s'.log = linesOf T1 s2.log ++
        [⟨T1, Msg.fStarts⟩, ⟨T1, Msg.fCompletes (s'.counter T1)⟩]) := by
  refine ⟨?_, ?_⟩
  · have hR : NoRespawn 0 (initWorkers 2) := by
      intro u
      by_cases h : u < 2 <;> simp [initWorkers, h, entryThread, idleThread, willSpawn]
    refine ⟨_, rfl, rfl, rfl, ?_⟩
    exact (((C6_two_records_in_order 0 (initWorkers 2) (by rfl) hR).2.1
      [0, 1, 0, 1, 1, 0, 1] _ (by rfl)).2.2.1) (by decide) (by decide)
  · obtain ⟨s6, e, p, _, _⟩ := main_completes LOOP_BOUND loop_bound_fits
    obtain ⟨s2, e2⟩ : ∃ s2, exec LOOP_BOUND [MAIN, MAIN] initMain = some s2 := by
      simp [exec, step, initMain, MAIN, T1, T2, Function.update_apply]
    have f2 : (s2.thr T1).pc = Pc.fLogStart ∧ NoRespawn T1 s2 := by
      simp [exec, step, initMain, MAIN, T1, T2, Function.update_apply] at e2
      subst e2
      refine ⟨by simp [T1, entryThread], ?_⟩
      intro u
      simp [Function.update_apply, T1, MAIN]
      split_ifs <;> simp [willSpawn, entryThread, idleThread, T1, T2]
    have hsplit : mainSchedule LOOP_BOUND = [MAIN, MAIN] ++
        (MAIN :: (List.replicate (fSteps LOOP_BOUND) T1 ++
        (List.replicate (fSteps LOOP_BOUND) T2 ++ [MAIN, MAIN, MAIN, MAIN]))) := by
      simp [mainSchedule]
    rw [hsplit, exec_append, e2, Option.some_bind] at e
    have e' : exec LOOP_BOUND (MAIN :: (List.replicate (fSteps LOOP_BOUND) T1 ++
        (List.replicate (fSteps LOOP_BOUND) T2 ++ [MAIN, MAIN, MAIN, MAIN]))) s2 = some s6 := e
    have hI : MainInv LOOP_BOUND s2 :=
      MainInv_exec LOOP_BOUND loop_bound_fits [MAIN, MAIN] initMain s2 e2
        (MainInv_init LOOP_BOUND)
    have hI6 := MainInv_exec LOOP_BOUND loop_bound_fits _ s2 s6 e' hI
    have hP := hI6.1.1
    rw [p] at hP
    have p1 : (s6.thr T1).pc = Pc.fRet := hP.1
    exact ⟨s2, s6, e2, f2.1, e', p1,
      ((C6_two_records_in_order T1 s2 f2.1 f2.2).2.1 _ s6 e').2.2.2.2 p1⟩

/-- C9: `f` does not reset the counter. For every value `c` of the calling
thread's counter on entry such that `c + 1,000,000` fits in a 32-bit `int`,
run on its own the thread stands at the loop test with `i = k` and its counter
at `c + k` after `k ≤ 1,000,000` iterations, and returns having printed the
completion line with `c + 1,000,000`, which is `1,000,000` exactly when
`c = 0`; and an invocation entered with the counter at `c + 1,000,000`, the
value a first invocation leaves, prints `c + 2,000,000` when that fits. -/
theorem C9_counter_accumulates (c : Int) (t : Tid) (s : State)
    (hlo : INT_MIN ≤ c) (hhi : c + 1000000 ≤ INT_MAX)
    (hpc : (s.thr t).pc = Pc.fLogStart) (hc : s.counter t = c) :
    (∀ k : Nat, k ≤ 1000000 →
      ∃ sk, exec LOOP_BOUND (List.replicate (2 + 5 * k) t) s = some sk ∧
        (sk.thr t).pc = Pc.fTest ∧ (sk.thr t).i = (k : Int) ∧
        sk.counter t = c + (k : Int)) ∧
    (∃ s', exec LOOP_BOUND (List.replicate (fSteps LOOP_BOUND) t) s = some s' ∧
      (s'.thr t).pc = Pc.fRet ∧ s'.counter t = c + 1000000 ∧
      s'.log = s.log ++ [⟨t, Msg.fStarts⟩, ⟨t, Msg.fCompletes (c + 1000000)⟩] ∧
      (c + 1000000 = 1000000 ↔ c = 0) ∧
      ∀ s2 : State, (s2.thr t).pc = Pc.fLogStart → s2.counter t = s'.counter t →
        c + 2000000 ≤ INT_MAX →
        ∃ s3, exec LOOP_BOUND (List.replicate (fSteps LOOP_BOUND) t) s2 = some s3 ∧
          (s3.thr t).pc = Pc.fRet ∧
          s3.log = s2.log ++ [⟨t, Msg.fStarts⟩, ⟨t, Msg.fCompletes (c + 2000000)⟩]) := by
  refine ⟨?_, ?_⟩
  · intro k hk
    obtain ⟨sk, ek, pk, ik, ck, _⟩ :=
      upto_run LOOP_BOUND loop_bound_fits t s hpc k (by unfold LOOP_BOUND; omega)
    refine ⟨sk, ek, pk, ik, ?_⟩
    rw [ck, hc]
    apply bump_iterate k c hlo
    have : (k : Int) ≤ 1000000 := by exact_mod_cast hk
    omega
  · obtain ⟨s', e, p, cf, l, _, _, _⟩ := full_run LOOP_BOUND loop_bound_fits t s hpc
    have eN : ((LOOP_BOUND : Nat) : Int) = 1000000 := rfl
    have hb : bump^[LOOP_BOUND] c = c + 1000000 := by
      rw [bump_iterate LOOP_BOUND c hlo (by rw [eN]; exact hhi), eN]
    rw [hc, hb] at cf l
    refine ⟨s', e, p, cf, l, by omega, ?_⟩
    intro s2 p2 c2 h2
    obtain ⟨s3, e3, p3, _, l3, _, _, _⟩ := full_run LOOP_BOUND loop_bound_fits t s2 p2
    have hb2 : bump^[LOOP_BOUND] (c + 1000000) = c + 2000000 := by
      rw [bump_iterate LOOP_BOUND (c + 1000000) (by omega) (by rw [eN]; omega), eN]
      omega
    rw [c2, cf, hb2] at l3
    exact ⟨s3, e3, p3, l3⟩

/-- C9, witness: entry with the counter at `0`; the first invocation prints
`1,000,000`, a second one on the same thread prints `2,000,000`. -/
theorem C9_counter_accumulates_witness :
    INT_MIN ≤ 0 ∧ (0 : Int) + 1000000 ≤ INT_MAX ∧
    ∃ s', exec LOOP_BOUND (List.replicate (fSteps LOOP_BOUND) 0) (initWorkers 1) = some s' ∧
      (s'.thr 0).pc = Pc.fRet ∧ s'.counter 0 = 0 + 1000000 ∧
      s'.log = (initWorkers 1).log ++
        [⟨0, Msg.fStarts⟩, ⟨0, Msg.fCompletes (0 + 1000000)⟩] ∧
      ((0 : Int) + 1000000 = 1000000 ↔ (0 : Int) = 0) ∧
      ∀ s2 : State, (s2.thr 0).pc = Pc.fLogStart → s2.counter 0 = s'.counter 0 →
        (0 : Int) + 2000000 ≤ INT_MAX →
        ∃ s3, exec LOOP_BOUND (List.replicate (fSteps LOOP_BOUND) 0) s2 = some s3 ∧
          (s3.thr 0).pc = Pc.fRet ∧
          s3.log = s2.log ++ [⟨0, Msg.fStarts⟩, ⟨0, Msg.fCompletes (0 + 2000000)⟩] :=
  ⟨by decide, by decide,
    (C9_counter_accumulates 0 0 (initWorkers 1) (by decide) (by decide) rfl rfl).2⟩

end ThreadLocal
